import Mathlib

/-!
Verification of the Battle-AI repository: an exact minimax action selector
for a two-combatant, turn-based battle game.

The repository files `a2_playstyle.py`, `a2_tree_of_states.py`,
`a2_skill_decision_tree.py` and `a2_skills.py` are embedded below.  The
combat-queue container and the combatant entities (`a2_battle_queue.py`,
`a2_characters.py`) are external collaborators of the repository (they are
not part of its sources); they are modelled from the specification's
interface description, pinned down by the arithmetic visible in the
repository's own doctests (skill costs, damages and defenses).
-/

/-! ## Characters and skills (collaborator model)

`Modelled from the spec:` the Actor collaborator (`a2_characters.py` is not
part of the repository).  An actor has a name (actor equality is by name),
health and resource pools, and an enumerable, possibly empty set of legal
actions, an action being available only if the actor has sufficient
resources (spec §3, §6 and glossary).  The two character classes exercised
by the repository's doctests are Rogue and Mage; their costs, damages and
defenses are pinned by the doctests of `a2_skills.py`:
Mage attack costs 5 and deals 20, Mage special costs 30 and deals 40,
Rogue attack costs 3 and deals 15, Rogue special costs 10 and deals 20,
a Rogue defends 10 and a Mage defends 8, and damage is applied as
`hp := max 0 (hp - (damage - defense))`. -/

inductive CharClass where
  | rogue
  | mage
deriving DecidableEq, Repr

structure Character where
  name : String
  cls : CharClass
  hp : Nat
  sp : Nat
deriving DecidableEq, Repr

def attackCost : CharClass → Nat
  | .rogue => 3
  | .mage => 5

def specialCost : CharClass → Nat
  | .rogue => 10
  | .mage => 30

def attackDamage : CharClass → Nat
  | .rogue => 15
  | .mage => 20

def specialDamage : CharClass → Nat
  | .rogue => 20
  | .mage => 40

def defenseOf : CharClass → Nat
  | .rogue => 10
  | .mage => 8

/-- `Modelled from the spec:` the Actor collaborator's
`legalActions() → ordered set of Action, possibly empty` (spec §6): an
action is available exactly when the actor has sufficient resources, the
basic attack listed before the special attack. -/
def get_available_actions (c : Character) : List String :=
  (if attackCost c.cls ≤ c.sp then ["A"] else []) ++
    (if specialCost c.cls ≤ c.sp then ["S"] else [])

/-! ## The battle queue (collaborator model)

`Modelled from the spec:` the Combat Queue collaborator
(`a2_battle_queue.py` is not part of the repository).  Spec §3: an
ordered, mutable sequence of the two combatants; `peek()` is the next
actor (the head), `remove()` pops the head, actions append entries,
`copy()` is a deep, value-independent snapshot (ordinary value semantics
here), `isOver()` is true when the queue is exhausted or a combatant's
health reached zero, and `winner()` returns the surviving combatant when
the other one's health is zero, and no one on a tie (spec §3, §7).
The queue is represented by the two combatants plus a list of sides
(`false` = first combatant, `true` = second); entries of the Python queue
are object references to one of the two combatants, which side values
model faithfully. -/

structure BattleQueue where
  p1 : Character
  p2 : Character
  content : List Bool
deriving DecidableEq, Repr

def charOf (s : BattleQueue) (b : Bool) : Character :=
  if b then s.p2 else s.p1

def setChar (s : BattleQueue) (b : Bool) (c : Character) : BattleQueue :=
  if b then { s with p2 := c } else { s with p1 := c }

/-- `Modelled from the spec:` `peekNextActor()` — the head of the queue. -/
def peekSide (s : BattleQueue) : Option Bool :=
  s.content.head?

def is_empty (s : BattleQueue) : Bool :=
  s.content.isEmpty

/-- `Modelled from the spec:` the terminal test `isOver()`. -/
def is_over (s : BattleQueue) : Bool :=
  s.content.isEmpty || s.p1.hp = 0 || s.p2.hp = 0

/-- `Modelled from the spec:` `winner()` — the actor whose opponent's
health is zero, or none (a tie) otherwise. -/
def get_winner (s : BattleQueue) : Option Bool :=
  if ¬ is_over s then none
  else if s.p1.hp = 0 then some true
  else if s.p2.hp = 0 then some false
  else none

/-- Damage application (pinned by the `a2_skills.py` doctests):
the target loses `damage - defense` health, floored at zero. -/
def applyDamage (tgt : Character) (damage : Nat) : Character :=
  { tgt with hp := tgt.hp - (damage - defenseOf tgt.cls) }

/-- The effect of side `b` using action `a` ("A" or "S"), following
`a2_skills.py`: a normal attack deals its damage, costs its SP and
appends the caster; a Mage special appends the target then the caster;
a Rogue special appends the caster twice.  Anything else is a no-op. -/
def useSkill (s : BattleQueue) (b : Bool) (a : String) : BattleQueue :=
  let cst := charOf s b
  let tgt := charOf s (!b)
  if a = "A" then
    let s := setChar s b { cst with sp := cst.sp - attackCost cst.cls }
    let s := setChar s (!b) (applyDamage tgt (attackDamage cst.cls))
    { s with content := s.content ++ [b] }
  else if a = "S" then
    let s := setChar s b { cst with sp := cst.sp - specialCost cst.cls }
    let s := setChar s (!b) (applyDamage tgt (specialDamage cst.cls))
    match cst.cls with
    | .mage => { s with content := s.content ++ [!b, b] }
    | .rogue => { s with content := s.content ++ [b, b] }
  else s

/-- `Modelled from the spec:` `removeFront()` — pop the head. -/
def removeFront (s : BattleQueue) : BattleQueue :=
  { s with content := s.content.tail }

/-! ## get_state_score (`a2_playstyle.py`, lines 111-180) -/

/-- The runtime faults `get_state_score` and the selectors can raise:
`noFuel` is the embedding's fuel marker (proved unreachable),
`peekEmpty` is `peek()` on an exhausted queue (Python `IndexError`),
`maxEmpty` is `max` over an empty sequence (Python `ValueError`),
and the `iter*` faults are the Iterative selector's own index errors. -/
inductive GErr where
  | noFuel
  | peekEmpty
  | maxEmpty
  | iterNoPath
  | iterShortPath
  | iterNoScore
deriving DecidableEq, Repr

instance {ε α : Type} [DecidableEq ε] [DecidableEq α] :
    DecidableEq (Except ε α) := fun x y =>
  match x, y with
  | .error a, .error b =>
    if h : a = b then isTrue (by rw [h])
    else isFalse (by intro hc; cases hc; exact h rfl)
  | .ok a, .ok b =>
    if h : a = b then isTrue (by rw [h])
    else isFalse (by intro hc; cases hc; exact h rfl)
  | .error a, .ok b => isFalse (by intro hc; cases hc)
  | .ok a, .error b => isFalse (by intro hc; cases hc)

/-- The terminal branch of `get_state_score` (a2_playstyle.py:158-166):
with a winner, return the head actor's HP when the head's name equals
the winner's name, else the negated winner's HP; with no winner, 0. -/
def terminalScore (s : BattleQueue) : Except GErr Int :=
  match get_winner s with
  | some w =>
    match peekSide s with
    | none => .error .peekEmpty
    | some p =>
      if (charOf s p).name = (charOf s w).name then .ok ((charOf s p).hp : Int)
      else .ok (-((charOf s w).hp : Int))
  | none => .ok 0

/-- The one-ply successor built inside `get_state_score`
(a2_playstyle.py:170-176): copy, apply the action to the front actor,
then `remove()` unless the queue is empty. -/
def succState (s : BattleQueue) (b : Bool) (a : String) : BattleQueue :=
  let bq := useSkill s b a
  if bq.content.isEmpty then bq else removeFront bq

/-- The re-anchored value of one successor inside `get_state_score`
(a2_playstyle.py:178-180): peek the successor (raising if exhausted),
then negate the recursive score exactly when the successor's head
actor's name differs from the current head actor's. -/
def reanchorE (cur : Character) (s2 : BattleQueue) (r : Except GErr Int) :
    Except GErr Int :=
  match peekSide s2 with
  | none => .error .peekEmpty
  | some b2 => r.map (fun v => if cur.name ≠ (charOf s2 b2).name then -v else v)

/-- Sequential evaluation of the per-action scores, propagating the
first fault, as Python's generator does. -/
def mapValsE {α : Type} (f : α → Except GErr Int) : List α → Except GErr (List Int)
  | [] => .ok []
  | a :: rest =>
    match f a with
    | .error e => .error e
    | .ok v =>
      match mapValsE f rest with
      | .error e => .error e
      | .ok l => .ok (v :: l)

/-- Sequential evaluation in the `Option` monad, for the reference
definitions written from the spec. -/
def mapValsO {α : Type} (f : α → Option Int) : List α → Option (List Int)
  | [] => some []
  | a :: rest =>
    match f a with
    | none => none
    | some v =>
      match mapValsO f rest with
      | none => none
      | some l => some (v :: l)

/-- `get_state_score` (a2_playstyle.py:158-180), with explicit fuel
(the recursion is proved to stabilize at fuel `hpSum + 1` below). -/
def gssFuel : Nat → BattleQueue → Except GErr Int
  | 0, _ => .error .noFuel
  | fuel + 1, s =>
    if is_over s then terminalScore s
    else
      match peekSide s with
      | none => .error .peekEmpty
      | some b =>
        let acts := get_available_actions (charOf s b)
        let vals := mapValsE (fun a =>
          let s2 := succState s b a
          reanchorE (charOf s b) s2 (gssFuel fuel s2)) acts
        match vals with
        | .error e => .error e
        | .ok l =>
          match l.max? with
          | some m => .ok m
          | none => .error .maxEmpty

def hpSum (s : BattleQueue) : Nat :=
  s.p1.hp + s.p2.hp

def get_state_score (s : BattleQueue) : Except GErr Int :=
  gssFuel (hpSum s + 1) s


/-! ## RecursiveMinimax.select_attack (`a2_playstyle.py`, lines 206-257) -/

namespace RecursiveMinimax

/-- The body of the action loop in `RecursiveMinimax.select_attack`
(a2_playstyle.py:231-257): both the "A" and "S" branches return
unconditionally, falling back to the other action (unchecked) when the
examined action's re-anchored score misses the current state's score. -/
def selectGo (s : BattleQueue) (b : Bool) (acts : List String) (css : Int) :
    List String → Except GErr String
  | [] => .ok "X"
  | a :: rest =>
    if a = "A" then
      let t1 := useSkill s b "A"
      let t := if is_over t1 then t1 else removeFront t1
      match peekSide t with
      | none => .error .peekEmpty
      | some b2 =>
        (get_state_score t).bind (fun v =>
          if (charOf t b2).name = (charOf s b).name then
            .ok (if v = css then "A" else if acts.contains "S" then "S" else "X")
          else
            .ok (if -v = css then "A" else if acts.contains "S" then "S" else "X"))
    else if a = "S" then
      let t1 := useSkill s b "S"
      let t := if is_empty t1 then t1 else removeFront t1
      match peekSide t with
      | none => .error .peekEmpty
      | some b2 =>
        (get_state_score t).bind (fun v =>
          if (charOf t b2).name = (charOf s b).name then
            .ok (if v = css then "S" else if acts.contains "A" then "A" else "X")
          else
            .ok (if -v = css then "S" else if acts.contains "A" then "A" else "X"))
    else selectGo s b acts css rest

/-- `RecursiveMinimax.select_attack` (a2_playstyle.py:206-257). -/
def select_attack (s : BattleQueue) : Except GErr String :=
  match peekSide s with
  | none => .error .peekEmpty
  | some b =>
    let acts := get_available_actions (charOf s b)
    if acts.isEmpty then .ok "X"
    else
      (get_state_score s).bind (fun css => selectGo s b acts css acts)

end RecursiveMinimax


/-! ## The tree of states (`a2_tree_of_states.py`) and
IterativeMinimax (`a2_playstyle.py`, lines 267-402)

Nodes are kept in an arena (an array); a node's id is its index.  A
`TOS` node's `caster` is the head of its queue at creation time; the
Python object references stored in paths and in `snppc` keys are node
ids here (two distinct nodes never share a character object), except
for the string-typed keys the first block of
`helper_get_the_whole_tree` inserts.  Python score lists are modelled
by value: the first write to any score slot replaces the list (the
empty-score branch rebinds, and the shared creation-time cells of
non-terminal nodes are empty until then), so no mutable aliasing is
observable. -/

structure TOSNode where
  battle_q : BattleQueue
  caster : Bool
  lastRound : Option Nat
  last_round_caster : Option String
  last_round_taken_action : Option String
  score : List Int
deriving Repr

/-- A `[caster, last_round_caster, last_round_taken_action, score]`
path entry (a2_playstyle.py:301-306, 314-320): the caster object is the
node id, the score list evolves during scoring. -/
structure PEntry where
  node : Nat
  lrc : Option String
  action : Option String
  score : List Int
deriving Repr

/-- Keys of the `snppc` dict: the first block of
`helper_get_the_whole_tree` keys by the parent's name (a string), the
main loop keys by the parent's caster object (a node id); the two kinds
never compare equal, like a Python string and a Character. -/
inductive SnKey where
  | byName (s : String)
  | byNode (i : Nat)
deriving DecidableEq, Repr

structure TreeSt where
  arena : Array TOSNode
  rootChildren : List Nat
  possible_paths : Array (Array PEntry)
  snppc : List (SnKey × List (Nat × Nat))
deriving Repr

def casterName (arena : Array TOSNode) (i : Nat) : String :=
  match arena[i]? with
  | none => ""
  | some n => (charOf n.battle_q n.caster).name

def availTwoAt (arena : Array TOSNode) (i : Nat) : Bool :=
  match arena[i]? with
  | none => false
  | some n => (get_available_actions (charOf n.battle_q n.caster)).length = 2

def mkEntry (arena : Array TOSNode) (i : Nat) : PEntry :=
  match arena[i]? with
  | none => ⟨i, none, none, []⟩
  | some n => ⟨i, n.last_round_caster, n.last_round_taken_action, n.score⟩

/-- Overwrite-or-insert on the `snppc` dict (insertion order kept). -/
def snSet (sn : List (SnKey × List (Nat × Nat))) (k : SnKey)
    (v : List (Nat × Nat)) : List (SnKey × List (Nat × Nat)) :=
  match sn with
  | [] => [(k, v)]
  | (k2, v2) :: rest =>
    if k2 = k then (k2, v) :: rest else (k2, v2) :: snSet rest k v

/-- Append-or-insert on the `snppc` dict (a2_playstyle.py:321-329). -/
def snPush (sn : List (SnKey × List (Nat × Nat))) (k : SnKey)
    (pos : Nat × Nat) : List (SnKey × List (Nat × Nat)) :=
  match sn with
  | [] => [(k, [pos])]
  | (k2, v2) :: rest =>
    if k2 = k then (k2, v2 ++ [pos]) :: rest else (k2, v2) :: snPush rest k pos

/-- The child queue of one `get_children_and_update` action
(a2_tree_of_states.py:97-105): copy the node's queue, apply the
action, rotate unless the result is over or either upcoming actor has
no actions. -/
def gcauBq2 (t : TOSNode) (action : String) : BattleQueue :=
  let bq1 := useSkill t.battle_q t.caster action
  let rot :=
    match peekSide bq1 with
    | none => false
    | some h =>
      ¬ is_over bq1 ∧ get_available_actions (charOf bq1 h) ≠ [] ∧
        get_available_actions (charOf bq1 (!h)) ≠ []
  if rot then removeFront bq1 else bq1

/-- One action of `get_children_and_update`
(a2_tree_of_states.py:96-122): append a child node wrapping the child
queue, carrying its provisional score — signed winner HP at a terminal
child, `[0]` on a tie, `[]` otherwise. -/
def gcauStep (t : TOSNode) (i : Nat) (acc : Array TOSNode × List Nat)
    (action : String) : Array TOSNode × List Nat :=
  let rootName := (charOf t.battle_q t.caster).name
  let bq2 := gcauBq2 t action
  match peekSide bq2 with
  | none => acc
  | some cs =>
    let sc : List Int :=
      match get_winner bq2 with
      | some w =>
        if w = cs then [((charOf bq2 w).hp : Int)]
        else [-((charOf bq2 w).hp : Int)]
      | none => if is_over bq2 then [0] else []
    (acc.1.push ⟨bq2, cs, some i, some rootName, some action, sc⟩,
      acc.2 ++ [acc.1.size])

/-- `get_children_and_update` (a2_tree_of_states.py:93-123) on node
`i`: expand every available action of the node's caster.  Returns the
grown arena and the child ids. -/
def gcauExpand (arena : Array TOSNode) (i : Nat) : Array TOSNode × List Nat :=
  match arena[i]? with
  | none => (arena, [])
  | some t =>
    if is_over t.battle_q then (arena, [])
    else
      (get_available_actions (charOf t.battle_q t.caster)).foldl
        (gcauStep t i) (arena, [])

/-- `get_children` on a list of nodes (a2_tree_of_states.py:149-154):
expand every non-terminal frontier node, collect the children in
order. -/
def expandFrontier (arena : Array TOSNode) (ids : List Nat) :
    Array TOSNode × List Nat :=
  ids.foldl
    (fun (acc : Array TOSNode × List Nat) i =>
      let r := gcauExpand acc.1 i
      (r.1, acc.2 ++ r.2))
    (arena, [])

namespace IterativeMinimax

/-- The leaf-to-root walk of `helper_get_the_whole_tree`
(a2_playstyle.py:316-330): push an entry for every ancestor, recording
in `snppc` every ancestor whose caster has exactly two available
actions, keyed by that caster (its node id), at the position just
pushed; `np` is the index this path will receive. -/
def walkUp (arena : Array TOSNode) (np : Nat) :
    Nat → Nat → Array PEntry → List (SnKey × List (Nat × Nat)) →
    Array PEntry × List (SnKey × List (Nat × Nat))
  | 0, _, path, sn => (path, sn)
  | fuel + 1, cur, path, sn =>
    match arena[cur]? with
    | none => (path, sn)
    | some cn =>
      match cn.lastRound with
      | none => (path, sn)
      | some p =>
        let path := path.push (mkEntry arena p)
        let sn :=
          if availTwoAt arena p then snPush sn (.byNode p) (np, path.size - 1)
          else sn
        walkUp arena np fuel p path sn

/-- Path recording for one terminal frontier node
(a2_playstyle.py:312-331): the leaf entry plus the walk up to the
root. -/
def recordPath (st : TreeSt) (c : Nat) : TreeSt :=
  match st.arena[c]? with
  | none => st
  | some cn =>
    if is_over cn.battle_q then
      let pr := walkUp st.arena st.possible_paths.size st.arena.size c
        (#[mkEntry st.arena c]) st.snppc
      { st with possible_paths := st.possible_paths.push pr.1,
                snppc := pr.2 }
    else st

/-- The `while tloc != []` loop of `helper_get_the_whole_tree`
(a2_playstyle.py:310-331): expand the frontier breadth-first; for each
terminal node of the new frontier, record the full leaf-to-root path
and its `snppc` entries. -/
def bfsLoop : Nat → TreeSt → List Nat → Except GErr TreeSt
  | 0, st, tloc => if tloc.isEmpty then .ok st else .error .noFuel
  | fuel + 1, st, tloc =>
    if tloc.isEmpty then .ok st
    else
      let er := expandFrontier st.arena tloc
      let st := { st with arena := er.1 }
      let st := er.2.foldl recordPath st
      bfsLoop fuel st er.2

/-- The pre-loop block of `helper_get_the_whole_tree`
(a2_playstyle.py:298-309): a two-entry path for every terminal
depth-one child, plus the string-keyed `snppc` entry hard-coded at
position `(0, 1)`. -/
def firstPath (st : TreeSt) (c : Nat) : TreeSt :=
  match st.arena[c]? with
  | none => st
  | some cn =>
    if is_over cn.battle_q then
      let path := #[mkEntry st.arena c, mkEntry st.arena 0]
      let st := { st with possible_paths := st.possible_paths.push path }
      if availTwoAt st.arena 0 then
        { st with
          snppc := snSet st.snppc (.byName (cn.last_round_caster.getD ""))
            [(0, 1)] }
      else st
    else st

/-- `helper_get_the_whole_tree` (a2_playstyle.py:286-332) with explicit
loop fuel: build the root, expand once, record the depth-one terminal
paths, then run the breadth-first loop. -/
def buildTree (fuel : Nat) (s : BattleQueue) : Except GErr TreeSt :=
  match peekSide s with
  | none => .error .peekEmpty
  | some b =>
    let arena0 : Array TOSNode := #[⟨s, b, none, none, none, []⟩]
    let er := gcauExpand arena0 0
    let st0 : TreeSt :=
      { arena := er.1, rootChildren := er.2, possible_paths := #[],
        snppc := [] }
    let st1 := er.2.foldl firstPath st0
    bfsLoop fuel st1 er.2

def helper_get_the_whole_tree (s : BattleQueue) : Except GErr TreeSt :=
  buildTree (hpSum s + 2) s

/-- Write a score into a path entry (entry slot 3). -/
def setScore (paths : Array (Array PEntry)) (p q : Nat) (sc : List Int) :
    Array (Array PEntry) :=
  match paths[p]? with
  | none => paths
  | some row =>
    match row[q]? with
    | none => paths
    | some e => paths.setD p (row.setD q { e with score := sc })

/-- Write the pushed-out score copy at one recorded position. -/
def pushPos (sc : List Int) (st : TreeSt) (pos : Nat × Nat) : TreeSt :=
  { st with possible_paths := setScore st.possible_paths pos.1 pos.2 sc }

/-- Process one `snppc` entry of the push-out loop. -/
def pushKv (pn : Nat) (sc : List Int) (st : TreeSt)
    (kv : SnKey × List (Nat × Nat)) : TreeSt :=
  if kv.1 = SnKey.byNode pn then kv.2.foldl (pushPos sc) st else st

/-- The split-node push-out (a2_playstyle.py:365-369): copy the newly
resolved score to every `(path, position)` recorded in `snppc` for the
node `pn` (only object-keyed entries can match). -/
def pushOuts (st : TreeSt) (pn : Nat) (sc : List Int) : TreeSt :=
  st.snppc.foldl (pushKv pn sc) st

/-- One step of the inner loop of `helper_assign_all_scores`
(a2_playstyle.py:344-374) at index `i` of path `pIdx`, returning the
updated state and whether the loop `break`s. -/
def assignStep (st : TreeSt) (pIdx i : Nat) : TreeSt × Bool :=
  match st.possible_paths[pIdx]? with
  | none => (st, false)
  | some path =>
    match path[i]?, path[i+1]? with
    | some child, some parent =>
      let eqN := casterName st.arena child.node = casterName st.arena parent.node
      let head := child.score.headD 0
      let x := if eqN then head else -head
      if child.score ≠ [] ∧ parent.score ≠ [] then
        let s1 :=
          if availTwoAt st.arena parent.node then
            let t1 := parent.score ++ [x]
            if t1.length > 1 then [(t1.max?).getD 0] else t1
          else parent.score
        let pp := setScore st.possible_paths pIdx (i+1) (s1 ++ [x])
        ({ st with possible_paths := pp }, false)
      else if child.score ≠ [] ∧ parent.score = [] then
        let ns := if eqN then child.score else [-head]
        let st := { st with
          possible_paths := setScore st.possible_paths pIdx (i+1) ns }
        if availTwoAt st.arena parent.node then (pushOuts st parent.node ns, true)
        else (st, false)
      else (st, false)
    | _, _ => (st, false)

/-- The inner `for i in range(len(path) - 1)` loop with its `break`. -/
def assignPathGo (st : TreeSt) (pIdx : Nat) : Nat → Nat → TreeSt
  | 0, _ => st
  | fuel + 1, i =>
    match st.possible_paths[pIdx]? with
    | none => st
    | some path =>
      if i + 1 < path.size then
        let (st2, brk) := assignStep st pIdx i
        if brk then st2 else assignPathGo st2 pIdx fuel (i + 1)
      else st

/-- Process one recorded path of `helper_assign_all_scores`. -/
def assignPath (st : TreeSt) (pIdx : Nat) : TreeSt :=
  let sz := match st.possible_paths[pIdx]? with
    | none => 0
    | some p => p.size
  assignPathGo st pIdx sz 0

/-- `helper_assign_all_scores` (a2_playstyle.py:334-375): bottom-up
score propagation over every recorded path. -/
def assignScores (st : TreeSt) : TreeSt :=
  (List.range st.possible_paths.size).foldl assignPath st

def helper_assign_all_scores (s : BattleQueue) : Except GErr TreeSt :=
  (helper_get_the_whole_tree s).map assignScores

/-- `t.possible_paths[-1][-1][3][0]` (a2_playstyle.py:387): the root
score read from the last recorded path. -/
def lastRootScore (st : TreeSt) : Option Int := do
  let lastPath ← st.possible_paths[st.possible_paths.size - 1]?
  let lastE ← lastPath[lastPath.size - 1]?
  lastE.score.head?

/-- The final path scan of `IterativeMinimax.select_attack`
(a2_playstyle.py:388-395). -/
def scanGo (st : TreeSt) (rootName : String) (score : Int) :
    List (Array PEntry) → Except GErr String
  | [] => .ok "X"
  | p :: rest =>
    match p[p.size - 2]? with
    | none => .error .iterShortPath
    | some e =>
      let hit :=
        if casterName st.arena e.node = rootName then
          e.score ≠ [] ∧ e.score.headD 0 = score
        else
          e.score ≠ [] ∧ e.score.headD 0 = -score
      if hit then
        match e.action with
        | some a => .ok a
        | none => .error .iterNoScore
      else scanGo st rootName score rest

/-- `IterativeMinimax.select_attack` (a2_playstyle.py:377-395). -/
def select_attack (s : BattleQueue) : Except GErr String :=
  (helper_assign_all_scores s).bind (fun st =>
    if st.rootChildren.isEmpty then .ok "X"
    else if st.rootChildren.length = 1 then
      match st.possible_paths[0]? with
      | none => .error .iterNoPath
      | some p0 =>
        match p0[p0.size - 2]? with
        | none => .error .iterShortPath
        | some e =>
          match e.action with
          | some a => .ok a
          | none => .error .iterNoScore
    else
      match lastRootScore st with
      | none => .error .iterNoScore
      | some score =>
        scanGo st (casterName st.arena 0) score st.possible_paths.toList)

end IterativeMinimax



/-! ## The reference minimax value (for the refinement claim)

This definition follows the specification's words (spec §4.1 and the
claim): on a terminal state, 0 on a tie, the winner's remaining HP when
the winner has the same name as the queue's next actor, the negated
winner's HP otherwise; on a non-terminal state whose next actor has at
least one available action, the maximum over the available actions of
the successor's recursive score, negated exactly when the successor's
next actor's name differs from the current actor's, each successor
built by copying, applying the action to the front actor, and removing
the front actor if the queue is non-empty.  The function is undefined
(`none`) where the spec leaves it undefined. -/
def specValueFuel : Nat → BattleQueue → Option Int
  | 0, _ => none
  | f + 1, s =>
    if is_over s then
      match get_winner s with
      | none => some 0
      | some w =>
        match peekSide s with
        | none => none
        | some p =>
          if (charOf s p).name = (charOf s w).name then
            some ((charOf s w).hp : Int)
          else some (-((charOf s w).hp : Int))
    else
      match peekSide s with
      | none => none
      | some b =>
        let acts := get_available_actions (charOf s b)
        if acts.isEmpty then none
        else
          (mapValsO (fun a =>
            let s2 := succState s b a
            (specValueFuel f s2).bind (fun v =>
              (peekSide s2).map (fun b2 =>
                if (charOf s2 b2).name ≠ (charOf s b).name then -v else v))) acts).bind
            (fun l => l.max?)

def specValue (s : BattleQueue) : Option Int :=
  specValueFuel (hpSum s + 1) s

/-- Two-combatant well-formedness: the combatants carry distinct names
(actor equality is by name, spec §3/§9). -/
def wfNames (s : BattleQueue) : Prop :=
  s.p1.name ≠ s.p2.name

/-- The safety predicate of `get_state_score`'s recursion: terminal
states must keep a next actor when there is a winner, and every
non-terminal state visited must give its next actor at least one
available action (otherwise Python's `max` receives an empty
sequence). -/
def gssSafe : Nat → BattleQueue → Bool
  | 0, _ => false
  | f + 1, s =>
    if is_over s then
      match get_winner s with
      | some _ => !s.content.isEmpty
      | none => true
    else
      match peekSide s with
      | none => false
      | some b =>
        let acts := get_available_actions (charOf s b)
        !acts.isEmpty && acts.all (fun a => gssSafe f (succState s b a))

/-- The value the current actor obtains by playing `a`: the §4.1
one-ply successor's `get_state_score`, re-anchored to the current
actor's perspective. -/
def achievedValue (s : BattleQueue) (a : String) : Except GErr Int :=
  match peekSide s with
  | none => .error .peekEmpty
  | some b =>
    let s2 := succState s b a
    reanchorE (charOf s b) s2 (get_state_score s2)

/-! ## The skill decision tree (`a2_skill_decision_tree.py`) -/

inductive SkillTag where
  | mageAttack
  | mageSpecial
  | rogueAttack
  | rogueSpecial
deriving DecidableEq, Repr

/-- A skill value: its class plus an object identity — distinct nodes of
a Python tree hold distinct skill objects, and `in` compares them by
identity. -/
structure Skill where
  tag : SkillTag
  oid : Nat
deriving DecidableEq, Repr

inductive SkillDecisionTree where
  | node (value : Skill) (condition : Character → Character → Bool)
      (priority : Nat) (children : List SkillDecisionTree)

def caster_hp_more_than_50 (c : Character) (_ : Character) : Bool := 50 < c.hp

def caster_sp_more_than_20 (c : Character) (_ : Character) : Bool := 20 < c.sp

def target_hp_less_than_30 (_ : Character) (t : Character) : Bool := t.hp < 30

def target_sp_more_than_40 (_ : Character) (t : Character) : Bool := 40 < t.sp

def caster_hp_more_than_90 (c : Character) (_ : Character) : Bool := 90 < c.hp

def just_want_return_false (_ : Character) (_ : Character) : Bool := false

mutual

/-- `helper_get_all_path` (a2_skill_decision_tree.py:53-96): all
root-to-leaf paths, each a list of `(priority, skill, condition value)`
entries; `helperChildren` concatenates the children's path lists in
order, so prefixing the parent entry reproduces the Python loop. -/
def helper_get_all_path (t : SkillDecisionTree) (c tg : Character) :
    List (List (Nat × Skill × Bool)) :=
  match t with
  | .node v cond pri [] => [[(pri, v, cond c tg)]]
  | .node v cond pri (ch0 :: chs) =>
    (helperChildren (ch0 :: chs) c tg).map
      (fun p2 => (pri, v, cond c tg) :: p2)

def helperChildren (l : List SkillDecisionTree) (c tg : Character) :
    List (List (Nat × Skill × Bool)) :=
  match l with
  | [] => []
  | ch :: rest => helper_get_all_path ch c tg ++ helperChildren rest c tg

end

inductive PickErr where
  | indexError
deriving DecidableEq, Repr

/-- The candidate-collection loop of `pick_skill`
(a2_skill_decision_tree.py:125-138) with its two `break`s: when a
path's first entry (the root) carries a false condition, collection
stops with just that entry; otherwise each path contributes its first
false entry whose priority and skill were not collected before. -/
def collectCands : List Skill → List Nat →
    List (List (Nat × Skill × Bool)) → List Skill × List Nat
  | sk, pr, [] => (sk, pr)
  | sk, pr, path :: rest =>
    match path with
    | [] => collectCands sk pr rest
    | e0 :: _ =>
      if e0.2.2 = false then (sk ++ [e0.2.1], pr ++ [e0.1])
      else
        match path.find? (fun e =>
            !e.2.2 && !(pr.contains e.1) && !(sk.contains e.2.1)) with
        | some e => collectCands (sk ++ [e.2.1]) (pr ++ [e.1]) rest
        | none => collectCands sk pr rest

/-- `pick_skill` (a2_skill_decision_tree.py:101-143): collect the
candidates, then return the skill at the last position holding the
minimal priority; an empty candidate list reaches Python's `skills[0]`,
an `IndexError`. -/
def pick_skill (t : SkillDecisionTree) (c tg : Character) :
    Except PickErr Skill :=
  let col := collectCands [] [] (helper_get_all_path t c tg)
  let skills := col.1
  let prios := col.2
  let m := (prios.min?).getD 0
  let position := (List.range prios.length).foldl
    (fun pos i => if prios.getD i 0 = m then i else pos) 0
  match skills[position]? with
  | some sk => .ok sk
  | none => .error .indexError

/-- `create_default_tree` (a2_skill_decision_tree.py:266-292), object
identities 0-7. -/
def create_default_tree : SkillDecisionTree :=
  let t3 := SkillDecisionTree.node ⟨.rogueAttack, 3⟩ just_want_return_false 6 []
  let t2 := SkillDecisionTree.node ⟨.rogueSpecial, 2⟩ target_hp_less_than_30 4
    [t3]
  let t1 := SkillDecisionTree.node ⟨.mageAttack, 1⟩ caster_sp_more_than_20 3
    [t2]
  let t5 := SkillDecisionTree.node ⟨.rogueAttack, 5⟩ just_want_return_false 8 []
  let t4 := SkillDecisionTree.node ⟨.mageSpecial, 4⟩ target_sp_more_than_40 2
    [t5]
  let t7 := SkillDecisionTree.node ⟨.rogueSpecial, 7⟩ just_want_return_false 7 []
  let t6 := SkillDecisionTree.node ⟨.rogueAttack, 6⟩ caster_hp_more_than_90 1
    [t7]
  SkillDecisionTree.node ⟨.mageAttack, 0⟩ caster_hp_more_than_50 5 [t1, t4, t6]

/-- The per-path rule asserted by the specification: every root-to-leaf
path's candidate is its first node (from the root) whose condition
evaluates false, and the skill of the lowest-priority candidate is
returned. -/
def pickSkillClaimRule (t : SkillDecisionTree) (c tg : Character) :
    Option Skill :=
  let cands := (helper_get_all_path t c tg).filterMap
    (fun p => p.find? (fun e => e.2.2 = false))
  (cands.foldl (fun best e =>
    match best with
    | none => some e
    | some b0 => if e.1 < b0.1 then some e else b0) none).map (fun e => e.2.1)

/-- The collection loop of `pick_skill` restated over (priority, skill)
pairs: the amended per-path candidate rule. -/
def dedupCands : List (Nat × Skill) → List (List (Nat × Skill × Bool)) →
    List (Nat × Skill)
  | acc, [] => acc
  | acc, path :: rest =>
    match path with
    | [] => dedupCands acc rest
    | e0 :: _ =>
      if e0.2.2 = false then acc ++ [(e0.1, e0.2.1)]
      else
        match path.find? (fun e =>
            !e.2.2 && !((acc.map Prod.fst).contains e.1) &&
              !((acc.map Prod.snd).contains e.2.1)) with
        | some e => dedupCands (acc ++ [(e.1, e.2.1)]) rest
        | none => dedupCands acc rest

/-- One arena extends another: same entries at existing indices. -/
def arenaExt (a b : Array TOSNode) : Prop :=
  a.size ≤ b.size ∧ ∀ j, j < a.size → b[j]? = a[j]?

/-- Every id in the list denotes a node whose combined HP is below the
bound. -/
def nodesOk (arena : Array TOSNode) (bound : Nat) (ids : List Nat) : Prop :=
  ∀ id ∈ ids, ∃ n, arena[id]? = some n ∧ hpSum n.battle_q < bound

/-- The provisional-score rule for a freshly created child node: the
signed winner HP at a terminal child (positive exactly when the winner
is the child's caster), `[0]` on a tie, an empty list otherwise. -/
def scoreRule (nc : TOSNode) : Prop :=
  (∃ w, get_winner nc.battle_q = some w ∧
    nc.score = (if w = nc.caster then [((charOf nc.battle_q w).hp : Int)]
                else [-((charOf nc.battle_q w).hp : Int)])) ∨
  (get_winner nc.battle_q = none ∧ is_over nc.battle_q = true ∧
    nc.score = [0]) ∨
  (get_winner nc.battle_q = none ∧ is_over nc.battle_q = false ∧
    nc.score = [])

/-- Every id denotes a node obeying the provisional-score rule. -/
def childScoreOk (arena : Array TOSNode) (ids : List Nat) : Prop :=
  ∀ id ∈ ids, ∃ n, arena[id]? = some n ∧ scoreRule n

/-- Every position recorded in `snppc` points strictly past the
terminal leaf entry of its path. -/
def snppcPosOk (sn : List (SnKey × List (Nat × Nat))) : Prop :=
  ∀ kv ∈ sn, ∀ p ∈ kv.2, 1 ≤ p.2

/-- The leaf (position-zero) entry of path `p0`. -/
def entry0 (paths : Array (Array PEntry)) (p0 : Nat) : Option PEntry :=
  paths[p0]?.bind (fun row => row[0]?)


/-! ## Concrete states and trees used by the claim theorems -/

/-- The doctest state of `get_state_score` (a2_playstyle.py:115-131,
142-154): Rogue `r` HP 40 / SP 6, Mage `m` HP 14 / SP 35, the Mage in
front. -/
def bq1doc : BattleQueue :=
  ⟨⟨"r", .rogue, 40, 6⟩, ⟨"m", .mage, 14, 35⟩, [true, false]⟩

/-- A reachable state on which the two selectors achieve different
values: Rogue `r` HP 7 / SP 12 in front of Mage `m` HP 21 / SP 30. -/
def cexC1 : BattleQueue :=
  ⟨⟨"r", .rogue, 7, 12⟩, ⟨"m", .mage, 21, 30⟩, [false, true]⟩

/-- A state whose front Mage has both actions but whose recursion
reaches a non-terminal state with an action-less front actor. -/
def c3state : BattleQueue :=
  ⟨⟨"p", .mage, 14, 35⟩, ⟨"q", .rogue, 40, 2⟩, [false, true]⟩

/-- The same crash corner with distinct names, for the safety claim. -/
def c10state : BattleQueue :=
  ⟨⟨"m", .mage, 14, 35⟩, ⟨"r", .rogue, 40, 2⟩, [false, true]⟩

/-- A small state whose front Rogue wins by attacking: value 10. -/
def w3 : BattleQueue :=
  ⟨⟨"a", .rogue, 10, 3⟩, ⟨"b", .mage, 5, 4⟩, [false, true]⟩

/-- A small state whose actors are both out of skill points. -/
def s5w : BattleQueue :=
  ⟨⟨"u", .mage, 10, 1⟩, ⟨"v", .rogue, 10, 1⟩, [false, true]⟩

/-- The tree `helper_get_the_whole_tree` builds on `s5w`: the root
alone, no children, no recorded paths. -/
def st5w : TreeSt := ⟨#[⟨s5w, false, none, none, none, []⟩], [], #[], []⟩

/-- A state whose front Mage cannot afford any action. -/
def s6w : BattleQueue :=
  ⟨⟨"g", .mage, 10, 2⟩, ⟨"h", .rogue, 10, 1⟩, [false, true]⟩

/-- A one-entry queue, for the termination claim. -/
def s9w : BattleQueue :=
  ⟨⟨"i", .mage, 10, 1⟩, ⟨"j", .rogue, 10, 1⟩, [false]⟩

/-- A terminal state with a winner and a non-empty queue. -/
def s10w : BattleQueue :=
  ⟨⟨"k", .rogue, 10, 3⟩, ⟨"l", .mage, 0, 35⟩, [false, true]⟩

/-- The caster of the default-tree reference scenario: HP 100 / SP 40. -/
def cst7 : Character := ⟨"s", .mage, 100, 40⟩

/-- The target of the default-tree reference scenario: HP 50 / SP 30. -/
def tgt7 : Character := ⟨"r", .rogue, 50, 30⟩

/-- A tree on which the claimed per-path rule and `pick_skill`
disagree: a true root over one false node with two false leaves, so
the second path dedups onto its leaf. -/
def cexTree : SkillDecisionTree :=
  SkillDecisionTree.node ⟨.mageAttack, 0⟩ caster_hp_more_than_50 9
    [SkillDecisionTree.node ⟨.mageSpecial, 1⟩ just_want_return_false 5
      [SkillDecisionTree.node ⟨.rogueSpecial, 2⟩ just_want_return_false 6 [],
       SkillDecisionTree.node ⟨.rogueAttack, 3⟩ just_want_return_false 1 []]]

/-- A one-node tree whose only condition holds on `cst8`/`tgt8`. -/
def allTrueTree : SkillDecisionTree :=
  SkillDecisionTree.node ⟨.mageAttack, 0⟩ caster_hp_more_than_50 1 []

/-- A caster with HP over 50, so every `allTrueTree` condition holds. -/
def cst8 : Character := ⟨"c8", .mage, 60, 10⟩

/-- A target for the all-true scenario. -/
def tgt8 : Character := ⟨"t8", .rogue, 50, 30⟩

-- THEOREMS

theorem avail_sub (c : Character) :
    get_available_actions c = [] ∨ get_available_actions c = ["A"] ∨
      get_available_actions c = ["A", "S"] := by
  unfold get_available_actions
  rcases c with ⟨n, cls, hp, sp⟩
  cases cls <;> simp only [attackCost, specialCost] <;>
    split_ifs with h1 h2 <;> simp_all <;> omega

theorem mem_avail {c : Character} {a : String}
    (h : a ∈ get_available_actions c) : a = "A" ∨ a = "S" := by
  rcases avail_sub c with h2 | h2 | h2 <;> rw [h2] at h <;> simp_all

theorem hpSum_useSkill_lt {s : BattleQueue} {b : Bool} {a : String}
    (ha : a = "A" ∨ a = "S") (h1 : s.p1.hp ≠ 0) (h2 : s.p2.hp ≠ 0) :
    hpSum (useSkill s b a) < hpSum s := by
  rcases ha with rfl | rfl <;>
    cases b <;>
    rcases hc : (charOf s true).cls with _ | _ <;>
    rcases hd : (charOf s false).cls with _ | _ <;>
    simp_all [useSkill, setChar, charOf, applyDamage, hpSum, attackCost,
      specialCost, attackDamage, specialDamage, defenseOf] <;>
    omega

theorem hpSum_removeFront (s : BattleQueue) :
    hpSum (removeFront s) = hpSum s := rfl

theorem hpSum_succState_lt {s : BattleQueue} {b : Bool} {a : String}
    (ha : a = "A" ∨ a = "S") (h1 : s.p1.hp ≠ 0) (h2 : s.p2.hp ≠ 0) :
    hpSum (succState s b a) < hpSum s := by
  have h := @hpSum_useSkill_lt s b a ha h1 h2
  show hpSum (if (useSkill s b a).content.isEmpty then useSkill s b a
    else removeFront (useSkill s b a)) < hpSum s
  split
  · exact h
  · rw [hpSum_removeFront]; exact h

theorem not_over_facts {s : BattleQueue} (h : is_over s = false) :
    s.content.isEmpty = false ∧ s.p1.hp ≠ 0 ∧ s.p2.hp ≠ 0 := by
  unfold is_over at h
  simp only [Bool.or_eq_false_iff, decide_eq_false_iff_not] at h
  exact ⟨h.1.1, h.1.2, h.2⟩

theorem mapValsE_congr {α : Type} {f g : α → Except GErr Int}
    (l : List α) (h : ∀ a ∈ l, f a = g a) : mapValsE f l = mapValsE g l := by
  induction l with
  | nil => rfl
  | cons x xs ih =>
    unfold mapValsE
    rw [h x (by simp), ih (fun a ha => h a (by simp [ha]))]

theorem gssFuel_congr :
    ∀ (f g : Nat) (s : BattleQueue), hpSum s < f → hpSum s < g →
      gssFuel f s = gssFuel g s := by
  intro f
  induction f with
  | zero => intro g s hf; omega
  | succ f ih =>
    intro g s hf hg
    obtain ⟨g2, rfl⟩ : ∃ g2, g = g2 + 1 := ⟨g - 1, by omega⟩
    show gssFuel (f + 1) s = gssFuel (g2 + 1) s
    unfold gssFuel
    by_cases hov : is_over s = true
    · simp [hov]
    · simp only [hov, if_false]
      rcases hpk : peekSide s with _ | b
      · rfl
      · simp only []
        have hfacts := not_over_facts (by simpa using hov)
        have hcong : mapValsE (fun a =>
              let s2 := succState s b a
              reanchorE (charOf s b) s2 (gssFuel f s2))
              (get_available_actions (charOf s b)) =
            mapValsE (fun a =>
              let s2 := succState s b a
              reanchorE (charOf s b) s2 (gssFuel g2 s2))
              (get_available_actions (charOf s b)) := by
          apply mapValsE_congr
          intro a ha
          have hlt := @hpSum_succState_lt s b a
            (mem_avail ha) hfacts.2.1 hfacts.2.2
          show reanchorE (charOf s b) (succState s b a)
              (gssFuel f (succState s b a)) =
            reanchorE (charOf s b) (succState s b a)
              (gssFuel g2 (succState s b a))
          rw [ih g2 (succState s b a) (by omega) (by omega)]
        rw [hcong]

theorem gssFuel_stable {s : BattleQueue} {f : Nat} (h : hpSum s < f) :
    gssFuel f s = get_state_score s :=
  gssFuel_congr f (hpSum s + 1) s h (by omega)

theorem mapValsE_error_exists {α : Type} {f : α → Except GErr Int} {e : GErr} :
    ∀ {l : List α}, mapValsE f l = .error e → ∃ a ∈ l, f a = .error e := by
  intro l
  induction l with
  | nil => intro h; simp [mapValsE] at h
  | cons x xs ih =>
    intro h
    unfold mapValsE at h
    rcases hx : f x with ex | vx <;> rw [hx] at h
    · cases h
      exact ⟨x, by simp, hx⟩
    · rcases hxs : mapValsE f xs with exs | vxs <;> rw [hxs] at h
      · cases h
        rcases ih hxs with ⟨a, ha, hfa⟩
        exact ⟨a, by simp [ha], hfa⟩
      · cases h

theorem reanchorE_error {cur : Character} {s2 : BattleQueue}
    {r : Except GErr Int} {e : GErr} (h : reanchorE cur s2 r = .error e) :
    e = .peekEmpty ∨ r = .error e := by
  unfold reanchorE at h
  rcases hpk : peekSide s2 with _ | b2 <;> rw [hpk] at h
  · cases h; exact Or.inl rfl
  · rcases r with er | vr
    · simp only [Except.map] at h
      cases h; exact Or.inr rfl
    · simp [Except.map] at h

theorem terminalScore_ne_noFuel (s : BattleQueue) :
    terminalScore s ≠ .error .noFuel := by
  unfold terminalScore
  rcases hw : get_winner s with _ | w
  · simp
  · rcases hp : peekSide s with _ | p
    · simp
    · dsimp only
      split_ifs <;> simp

theorem gssFuel_no_noFuel :
    ∀ (f : Nat) (s : BattleQueue), hpSum s < f →
      gssFuel f s ≠ .error .noFuel := by
  intro f
  induction f with
  | zero => intro s hf; omega
  | succ f ih =>
    intro s hf
    unfold gssFuel
    by_cases hov : is_over s = true
    · simp only [hov, if_true]
      exact terminalScore_ne_noFuel s
    · simp only [hov, if_false]
      rcases hpk : peekSide s with _ | b
      · simp
      · simp only []
        have hfacts := not_over_facts (by simpa using hov)
        rcases hm : mapValsE (fun a =>
            let s2 := succState s b a
            reanchorE (charOf s b) s2 (gssFuel f s2))
            (get_available_actions (charOf s b)) with e | l
        · simp only [hm]
          intro hcontra
          cases hcontra
          rcases mapValsE_error_exists hm with ⟨a, ha, hfa⟩
          rcases reanchorE_error hfa with h1 | h1
          · cases h1
          · have hlt := @hpSum_succState_lt s b a
              (mem_avail ha) hfacts.2.1 hfacts.2.2
            exact ih (succState s b a) (by omega) h1
        · simp only [hm]
          rcases l.max? with _ | m <;> simp

theorem useSkill_p1_name (s : BattleQueue) (b : Bool) (a : String) :
    (useSkill s b a).p1.name = s.p1.name := by
  rcases s with ⟨⟨n1, c1, h1, sp1⟩, ⟨n2, c2, h2, sp2⟩, content⟩
  cases b <;> cases c1 <;> cases c2 <;>
    simp [useSkill, setChar, charOf, applyDamage] <;>
    split_ifs <;> rfl

theorem useSkill_p2_name (s : BattleQueue) (b : Bool) (a : String) :
    (useSkill s b a).p2.name = s.p2.name := by
  rcases s with ⟨⟨n1, c1, h1, sp1⟩, ⟨n2, c2, h2, sp2⟩, content⟩
  cases b <;> cases c1 <;> cases c2 <;>
    simp [useSkill, setChar, charOf, applyDamage] <;>
    split_ifs <;> rfl

theorem succState_p1_name (s : BattleQueue) (b : Bool) (a : String) :
    (succState s b a).p1.name = s.p1.name := by
  show (if (useSkill s b a).content.isEmpty then useSkill s b a
    else removeFront (useSkill s b a)).p1.name = s.p1.name
  split
  · exact useSkill_p1_name s b a
  · exact useSkill_p1_name s b a

theorem succState_p2_name (s : BattleQueue) (b : Bool) (a : String) :
    (succState s b a).p2.name = s.p2.name := by
  show (if (useSkill s b a).content.isEmpty then useSkill s b a
    else removeFront (useSkill s b a)).p2.name = s.p2.name
  split
  · exact useSkill_p2_name s b a
  · exact useSkill_p2_name s b a

theorem wfNames_succState {s : BattleQueue} (h : wfNames s) (b : Bool)
    (a : String) : wfNames (succState s b a) := by
  unfold wfNames at h ⊢
  rw [succState_p1_name, succState_p2_name]
  exact h

theorem name_eq_side {s : BattleQueue} (hwf : wfNames s) {p w : Bool}
    (h : (charOf s p).name = (charOf s w).name) : p = w := by
  cases p <;> cases w
  · rfl
  · exact absurd h hwf
  · exact absurd h.symm hwf
  · rfl

theorem terminalScore_toOption {s : BattleQueue} (hwf : wfNames s) :
    (terminalScore s).toOption =
      (match get_winner s with
       | none => some (0 : Int)
       | some w =>
         match peekSide s with
         | none => none
         | some p =>
           if (charOf s p).name = (charOf s w).name then
             some ((charOf s w).hp : Int)
           else some (-((charOf s w).hp : Int))) := by
  unfold terminalScore
  rcases hw : get_winner s with _ | w
  · rfl
  · rcases hp : peekSide s with _ | p
    · rfl
    · dsimp only
      split_ifs with hname
      · have hpw : p = w := name_eq_side hwf hname
        subst hpw
        rfl
      · rfl

theorem mapVals_toOption {α : Type} {f : α → Except GErr Int}
    {g : α → Option Int} :
    ∀ (l : List α), (∀ a ∈ l, (f a).toOption = g a) →
      (mapValsE f l).toOption = mapValsO g l := by
  intro l
  induction l with
  | nil => intro h; rfl
  | cons x xs ih =>
    intro h
    unfold mapValsE mapValsO
    rcases hfx : f x with e | v
    · have hgx : g x = none := by rw [← h x (by simp), hfx]; rfl
      rw [hgx]
      rfl
    · have hgx : g x = some v := by rw [← h x (by simp), hfx]; rfl
      rw [hgx]
      have ih2 := ih (fun a ha => h a (by simp [ha]))
      rcases hxs : mapValsE f xs with e2 | l2 <;> rw [hxs] at ih2
      · rw [← ih2]
        rfl
      · rw [← ih2]
        rfl

theorem gss_spec_fuel :
    ∀ (f : Nat) (s : BattleQueue), hpSum s < f → wfNames s →
      (gssFuel f s).toOption = specValueFuel f s := by
  intro f
  induction f with
  | zero => intro s hf; omega
  | succ f ih =>
    intro s hf hwf
    unfold gssFuel specValueFuel
    by_cases hov : is_over s = true
    · simp only [hov, if_true]
      exact terminalScore_toOption hwf
    · simp only [hov, if_false]
      rcases hpk : peekSide s with _ | b
      · have := (not_over_facts (by simpa using hov)).1
        unfold peekSide at hpk
        rcases hcon : s.content with _ | ⟨x, xs⟩
        · simp [hcon] at this
        · simp [hcon] at hpk
      · simp only []
        by_cases hacts : (get_available_actions (charOf s b)).isEmpty
        · rcases hae : get_available_actions (charOf s b) with _ | ⟨x, xs⟩
          · simp only [hae, List.isEmpty_nil, if_true]
            rfl
          · rw [hae] at hacts
            simp at hacts
        · simp only [hacts, if_false]
          have hfacts := not_over_facts (by simpa using hov)
          have helem : ∀ a ∈ get_available_actions (charOf s b),
              ((fun a =>
                let s2 := succState s b a
                reanchorE (charOf s b) s2 (gssFuel f s2)) a).toOption =
              ((fun a =>
                let s2 := succState s b a
                (specValueFuel f s2).bind (fun v =>
                  (peekSide s2).map (fun b2 =>
                    if (charOf s2 b2).name ≠ (charOf s b).name then -v
                    else v))) a) := by
            intro a ha
            show (reanchorE (charOf s b) (succState s b a)
                (gssFuel f (succState s b a))).toOption =
              (specValueFuel f (succState s b a)).bind (fun v =>
                (peekSide (succState s b a)).map (fun b2 =>
                  if (charOf (succState s b a) b2).name ≠ (charOf s b).name
                  then -v else v))
            have hlt := @hpSum_succState_lt s b a
              (mem_avail ha) hfacts.2.1 hfacts.2.2
            have ih2 := ih (succState s b a) (by omega)
              (wfNames_succState hwf b a)
            unfold reanchorE
            rcases hpk2 : peekSide (succState s b a) with _ | b2
            · rcases hsv : specValueFuel f (succState s b a) with _ | v
              · rfl
              · rfl
            · rw [← ih2]
              rcases hg : gssFuel f (succState s b a) with e | v
              · rfl
              · show some (if (charOf s b).name ≠
                    (charOf (succState s b a) b2).name then -v else v) =
                  some (if (charOf (succState s b a) b2).name ≠
                    (charOf s b).name then -v else v)
                by_cases hn : (charOf s b).name =
                    (charOf (succState s b a) b2).name
                · simp [hn]
                · simp [hn, Ne.symm hn]
          have hmv := @mapVals_toOption String
            (fun a =>
              let s2 := succState s b a
              reanchorE (charOf s b) s2 (gssFuel f s2))
            (fun a =>
              let s2 := succState s b a
              (specValueFuel f s2).bind (fun v =>
                (peekSide s2).map (fun b2 =>
                  if (charOf s2 b2).name ≠ (charOf s b).name then -v else v)))
            (get_available_actions (charOf s b)) helem
          rcases hme : mapValsE (fun a =>
              let s2 := succState s b a
              reanchorE (charOf s b) s2 (gssFuel f s2))
              (get_available_actions (charOf s b)) with e | l <;>
            rw [hme] at hmv
          · rw [← hmv]
            rfl
          · rw [← hmv]
            show (match l.max? with
              | some m => Except.ok m
              | none => Except.error GErr.maxEmpty).toOption =
              (some l).bind (fun l2 => l2.max?)
            rcases hmax : l.max? with _ | m <;>
              simp only [Option.some_bind, hmax] <;> rfl

theorem useSkill_content_ne {s : BattleQueue} {b : Bool} {a : String}
    (ha : a = "A" ∨ a = "S") : (useSkill s b a).content ≠ [] := by
  rcases ha with rfl | rfl <;>
    rcases hc : (charOf s b).cls with _ | _ <;>
    simp [useSkill, setChar, charOf, applyDamage] <;>
    cases b <;> simp_all [charOf] <;>
    rcases hcon : s.content with _ | ⟨x, xs⟩ <;> simp

theorem succState_content_ne {s : BattleQueue} {b : Bool} {a : String}
    (ha : a = "A" ∨ a = "S") (hs : s.content ≠ []) :
    (succState s b a).content ≠ [] := by
  have h2 : 2 ≤ (useSkill s b a).content.length := by
    rcases ha with rfl | rfl <;>
      rcases hc : (charOf s b).cls with _ | _ <;>
      simp [useSkill, setChar, charOf, applyDamage] <;>
      cases b <;>
      simp_all [charOf, List.length_append] <;>
      rcases hcon : s.content with _ | ⟨x, xs⟩ <;> simp_all
  show (if (useSkill s b a).content.isEmpty then useSkill s b a
    else removeFront (useSkill s b a)).content ≠ []
  split
  · exact useSkill_content_ne ha
  · show (useSkill s b a).content.tail ≠ []
    intro hc
    have := congrArg List.length hc
    simp [List.length_tail] at this
    omega

theorem reanchorE_ok_inner {cur : Character} {s2 : BattleQueue}
    {r : Except GErr Int} {y : Int} (h : reanchorE cur s2 r = .ok y) :
    ∃ b2 x, peekSide s2 = some b2 ∧ r = .ok x ∧
      y = (if cur.name ≠ (charOf s2 b2).name then -x else x) := by
  unfold reanchorE at h
  rcases hpk : peekSide s2 with _ | b2 <;> rw [hpk] at h
  · cases h
  · rcases r with e | x
    · simp [Except.map] at h
    · refine ⟨b2, x, rfl, rfl, ?_⟩
      simp only [Except.map] at h
      cases h
      rfl

theorem removeFront_p1 (s : BattleQueue) : (removeFront s).p1 = s.p1 := rfl

theorem removeFront_p2 (s : BattleQueue) : (removeFront s).p2 = s.p2 := rfl

theorem is_over_of_hp {s : BattleQueue} (h : s.p1.hp = 0 ∨ s.p2.hp = 0) :
    is_over s = true := by
  unfold is_over
  rcases h with h | h <;> simp [h]

theorem winner_of_over {s : BattleQueue} (hov : is_over s = true)
    (hne : s.content ≠ []) :
    (s.p1.hp = 0 ∨ s.p2.hp = 0) ∧
      get_winner s = some (if s.p1.hp = 0 then true else false) := by
  unfold is_over at hov
  have hhp : s.p1.hp = 0 ∨ s.p2.hp = 0 := by
    rcases hcon : s.content with _ | ⟨x, xs⟩
    · exact absurd hcon hne
    · rw [hcon] at hov
      simpa using hov
  refine ⟨hhp, ?_⟩
  unfold get_winner
  have hov2 : is_over s = true := is_over_of_hp hhp
  rcases h1 : s.p1.hp with _ | k
  · simp [hov2, h1]
  · have h2 : s.p2.hp = 0 := by omega
    simp [hov2, h1, h2]

theorem reanchor_terminal {u : BattleQueue} (hwf : wfNames u)
    (hne : u.content ≠ []) (hhp : u.p1.hp = 0 ∨ u.p2.hp = 0)
    {c : Character} (hc : c.name = u.p1.name ∨ c.name = u.p2.name) :
    ∃ w, get_winner u = some w ∧
      reanchorE c u (get_state_score u) =
        .ok (if c.name = (charOf u w).name then ((charOf u w).hp : Int)
             else -((charOf u w).hp : Int)) := by
  have hov : is_over u = true := is_over_of_hp hhp
  obtain ⟨hhp2, hw⟩ := winner_of_over hov hne
  set wv : Bool := if u.p1.hp = 0 then true else false with hwv
  refine ⟨wv, hw, ?_⟩
  obtain ⟨p, hp⟩ : ∃ p, peekSide u = some p := by
    unfold peekSide
    rcases hcon : u.content with _ | ⟨x, xs⟩
    · exact absurd hcon hne
    · exact ⟨x, rfl⟩
  have hterm : get_state_score u = terminalScore u := by
    unfold get_state_score gssFuel
    simp [hov]
  rw [hterm]
  unfold terminalScore reanchorE
  rw [hw, hp]
  by_cases hpw : (charOf u p).name = (charOf u wv).name
  · have hps : p = wv := name_eq_side hwf hpw
    rw [hps]
    simp only [if_pos rfl, Except.map]
    by_cases hcw : c.name = (charOf u wv).name
    · simp [hcw]
    · simp [hcw]
  · simp only [if_neg hpw, Except.map]
    by_cases hcp : c.name = (charOf u p).name
    · have hcw : ¬ c.name = (charOf u wv).name := by
        rw [hcp]; exact hpw
      simp [hcp, hcw, hpw]
    · have hcw : c.name = (charOf u wv).name := by
        by_cases hpw2 : p = wv
        · rw [hpw2] at hpw
          exact absurd rfl hpw
        · cases hb : wv <;> rw [hb] at hpw2 <;>
            cases p <;> simp_all [charOf] <;>
            rcases hc with h1 | h1 <;> simp_all
      have hpw2 : ¬ (charOf u wv).name = (charOf u p).name :=
        fun h => hpw h.symm
      simp [hcp, hcw, hpw, hpw2, neg_neg]

theorem content_ne_of_not_over {s : BattleQueue} (h : is_over s = false) :
    s.content ≠ [] := by
  intro hc
  have := (not_over_facts h).1
  rw [hc] at this
  simp at this

theorem mapValsE_ok_of_all {α : Type} {f : α → Except GErr Int} :
    ∀ {l : List α}, (∀ a ∈ l, ∃ v, f a = .ok v) →
      ∃ l2, mapValsE f l = .ok l2 ∧ l2.length = l.length := by
  intro l
  induction l with
  | nil => intro h; exact ⟨[], rfl, rfl⟩
  | cons x xs ih =>
    intro h
    obtain ⟨v, hv⟩ := h x (by simp)
    obtain ⟨l2, hl2, hlen⟩ := ih (fun a ha => h a (by simp [ha]))
    refine ⟨v :: l2, ?_, by simp [hlen]⟩
    unfold mapValsE
    rw [hv, hl2]

theorem max?_of_ne_nil {l : List Int} (h : l ≠ []) :
    ∃ m, l.max? = some m := by
  rcases l with _ | ⟨x, xs⟩
  · exact absurd rfl h
  · exact ⟨xs.foldl max x, rfl⟩

theorem gssSafe_ok :
    ∀ (f : Nat) (s : BattleQueue), hpSum s < f → gssSafe f s = true →
      ∃ v, gssFuel f s = .ok v := by
  intro f
  induction f with
  | zero => intro s hf; omega
  | succ f ih =>
    intro s hf hsafe
    unfold gssSafe at hsafe
    unfold gssFuel
    by_cases hov : is_over s = true
    · rw [hov] at hsafe ⊢
      simp only [if_true]
      unfold terminalScore
      rcases hw : get_winner s with _ | w
      · exact ⟨0, rfl⟩
      · rw [hw] at hsafe
        simp only [if_true] at hsafe
        have hne : ¬ s.content.isEmpty := by
          simpa using hsafe
        rcases hcon : s.content with _ | ⟨x, xs⟩
        · rw [hcon] at hne; simp at hne
        · have hp : peekSide s = some x := by
            unfold peekSide; rw [hcon]; rfl
          rw [hp]
          dsimp only
          split_ifs <;> exact ⟨_, rfl⟩
    · have hov2 : is_over s = false := by simpa using hov
      rw [hov2] at hsafe
      simp only [hov2, Bool.false_eq_true, if_false] at hsafe ⊢
      rcases hpk : peekSide s with _ | b
      · rw [hpk] at hsafe; cases hsafe
      · rw [hpk] at hsafe
        simp only [Bool.and_eq_true, Bool.not_eq_true', List.all_eq_true]
          at hsafe
        obtain ⟨hne, hall⟩ := hsafe
        have hfacts := not_over_facts hov2
        have hcne := content_ne_of_not_over hov2
        have hok : ∀ a ∈ get_available_actions (charOf s b),
            ∃ v, (let s2 := succState s b a
              reanchorE (charOf s b) s2 (gssFuel f s2)) = .ok v := by
          intro a ha
          have hlt := @hpSum_succState_lt s b a
            (mem_avail ha) hfacts.2.1 hfacts.2.2
          obtain ⟨v, hv⟩ := ih (succState s b a) (by omega) (hall a ha)
          have hpne := @succState_content_ne s b a
            (mem_avail ha) hcne
          obtain ⟨b2, hb2⟩ : ∃ b2, peekSide (succState s b a) = some b2 := by
            unfold peekSide
            rcases hcon : (succState s b a).content with _ | ⟨x, xs⟩
            · exact absurd hcon hpne
            · exact ⟨x, rfl⟩
          refine ⟨if (charOf s b).name ≠
              (charOf (succState s b a) b2).name then -v else v, ?_⟩
          show reanchorE (charOf s b) (succState s b a)
            (gssFuel f (succState s b a)) = _
          unfold reanchorE
          rw [hb2, hv]
          rfl
        obtain ⟨l2, hl2, hlen⟩ := mapValsE_ok_of_all hok
        dsimp only
        rw [hl2]
        dsimp only
        have hl2ne : l2 ≠ [] := by
          intro hcontra
          rw [hcontra] at hlen
          rcases hae : get_available_actions (charOf s b) with _ | ⟨y, ys⟩
          · rw [hae] at hne; simp at hne
          · rw [hae] at hlen; simp at hlen
        obtain ⟨m, hm⟩ := max?_of_ne_nil hl2ne
        rw [hm]
        exact ⟨m, rfl⟩


theorem peek_of_ne {s : BattleQueue} (h : s.content ≠ []) :
    ∃ p, peekSide s = some p := by
  unfold peekSide
  rcases hcon : s.content with _ | ⟨x, xs⟩
  · exact absurd hcon h
  · exact ⟨x, rfl⟩

theorem wfNames_useSkill {s : BattleQueue} (h : wfNames s) (b : Bool)
    (a : String) : wfNames (useSkill s b a) := by
  unfold wfNames at h ⊢
  rw [useSkill_p1_name, useSkill_p2_name]
  exact h

theorem succState_eq_remove {s : BattleQueue} {b : Bool} {a : String}
    (h : (useSkill s b a).content ≠ []) :
    succState s b a = removeFront (useSkill s b a) := by
  unfold succState
  simp only [List.isEmpty_eq_true]
  rw [if_neg h]

theorem branchA_result {s : BattleQueue} {b : Bool} (hwf : wfNames s)
    (hov : is_over s = false) (hpk : peekSide s = some b) {xA : Int}
    (hach : achievedValue s "A" = .ok xA) (css : Int)
    (acts rest : List String) :
    RecursiveMinimax.selectGo s b acts css ("A" :: rest) =
      .ok (if xA = css then "A"
           else if acts.contains "S" then "S" else "X") := by
  have hcne := content_ne_of_not_over hov
  have huse : (useSkill s b "A").content ≠ [] :=
    useSkill_content_ne (Or.inl rfl)
  have hs2 : succState s b "A" = removeFront (useSkill s b "A") :=
    succState_eq_remove huse
  have hach2 : reanchorE (charOf s b) (succState s b "A")
      (get_state_score (succState s b "A")) = .ok xA := by
    unfold achievedValue at hach
    rw [hpk] at hach
    exact hach
  show (let t1 := useSkill s b "A"
    let t := if is_over t1 then t1 else removeFront t1
    match peekSide t with
    | none => Except.error GErr.peekEmpty
    | some b2 =>
      (get_state_score t).bind (fun v =>
        if (charOf t b2).name = (charOf s b).name then
          .ok (if v = css then "A"
               else if acts.contains "S" then "S" else "X")
        else
          .ok (if -v = css then "A"
               else if acts.contains "S" then "S" else "X"))) = _
  by_cases hovt : is_over (useSkill s b "A") = true
  · simp only [hovt, if_true]
    obtain ⟨hhp, hwfm⟩ := winner_of_over hovt huse
    have wf1 : wfNames (useSkill s b "A") := wfNames_useSkill hwf b "A"
    have hcName : (charOf s b).name = (useSkill s b "A").p1.name ∨
        (charOf s b).name = (useSkill s b "A").p2.name := by
      cases b
      · exact Or.inl (useSkill_p1_name s false "A").symm
      · exact Or.inr (useSkill_p2_name s true "A").symm
    obtain ⟨w1, hw1, hr1⟩ := reanchor_terminal wf1 huse hhp hcName
    have hrne : (removeFront (useSkill s b "A")).content ≠ [] := by
      rw [← hs2]
      exact succState_content_ne (Or.inl rfl) hcne
    obtain ⟨w2, hw2, hr2⟩ := @reanchor_terminal (removeFront
      (useSkill s b "A")) wf1 hrne hhp _ hcName
    have hwfm2 : get_winner (removeFront (useSkill s b "A")) =
        some (if (useSkill s b "A").p1.hp = 0 then true else false) :=
      (@winner_of_over (removeFront (useSkill s b "A"))
        (@is_over_of_hp (removeFront (useSkill s b "A")) hhp) hrne).2
    have hww : w1 = w2 := by
      rw [hwfm] at hw1
      rw [hwfm2] at hw2
      cases hw1
      cases hw2
      rfl
    rw [hs2] at hach2
    rw [hr2] at hach2
    have hxa : xA = (if (charOf s b).name =
        (charOf (removeFront (useSkill s b "A")) w2).name then
          ((charOf (removeFront (useSkill s b "A")) w2).hp : Int)
        else -((charOf (removeFront (useSkill s b "A")) w2).hp : Int)) := by
      cases hach2
      rfl
    obtain ⟨p, x, hp1, hgss1, hsign⟩ := reanchorE_ok_inner hr1
    rw [hp1]
    dsimp only
    rw [hgss1]
    dsimp only [Except.bind]
    have hFval : xA = (if (charOf s b).name ≠
        (charOf (useSkill s b "A") p).name then -x else x) := by
      rw [hxa, ← hsign]
      subst hww
      rfl
    by_cases hn : (charOf (useSkill s b "A") p).name = (charOf s b).name
    · rw [if_pos hn]
      have hx : xA = x := by
        rw [hFval, if_neg]
        simp [hn.symm]
      rw [hx]
    · rw [if_neg hn]
      have hx : xA = -x := by
        rw [hFval, if_pos]
        exact fun hcontra => hn hcontra.symm
      rw [hx]
  · have hovt2 : is_over (useSkill s b "A") = false := by simpa using hovt
    simp only [hovt2, Bool.false_eq_true, if_false]
    rw [← hs2]
    obtain ⟨b2, x, hb2, hgss, hxa⟩ := reanchorE_ok_inner hach2
    rw [hb2]
    dsimp only
    rw [hgss]
    dsimp only [Except.bind]
    by_cases hn : (charOf (succState s b "A") b2).name = (charOf s b).name
    · rw [if_pos hn]
      have hx : xA = x := by
        rw [hxa, if_neg]
        simp [hn.symm]
      rw [hx]
    · rw [if_neg hn]
      have hx : xA = -x := by
        rw [hxa, if_pos]
        exact fun hcontra => hn hcontra.symm
      rw [hx]

theorem branchS_result {s : BattleQueue} {b : Bool} (hov : is_over s = false)
    (hpk : peekSide s = some b) {xS : Int}
    (hach : achievedValue s "S" = .ok xS) (css : Int)
    (acts rest : List String) :
    RecursiveMinimax.selectGo s b acts css ("S" :: rest) =
      .ok (if xS = css then "S"
           else if acts.contains "A" then "A" else "X") := by
  have hach2 : reanchorE (charOf s b) (succState s b "S")
      (get_state_score (succState s b "S")) = .ok xS := by
    unfold achievedValue at hach
    rw [hpk] at hach
    exact hach
  show (match peekSide (succState s b "S") with
    | none => Except.error GErr.peekEmpty
    | some b2 =>
      (get_state_score (succState s b "S")).bind (fun v =>
        if (charOf (succState s b "S") b2).name = (charOf s b).name then
          .ok (if v = css then "S"
               else if acts.contains "A" then "A" else "X")
        else
          .ok (if -v = css then "S"
               else if acts.contains "A" then "A" else "X"))) = _
  obtain ⟨b2, x, hb2, hgss, hxa⟩ := reanchorE_ok_inner hach2
  rw [hb2]
  dsimp only
  rw [hgss]
  dsimp only [Except.bind]
  by_cases hn : (charOf (succState s b "S") b2).name = (charOf s b).name
  · rw [if_pos hn]
    have hx : xS = x := by
      rw [hxa, if_neg]
      simp [hn.symm]
    rw [hx]
  · rw [if_neg hn]
    have hx : xS = -x := by
      rw [hxa, if_pos]
      exact fun hcontra => hn hcontra.symm
    rw [hx]

theorem mapValsE_singleton {α : Type} {f : α → Except GErr Int} {a : α}
    {l : List Int} (h : mapValsE f [a] = .ok l) :
    ∃ x, f a = .ok x ∧ l = [x] := by
  unfold mapValsE at h
  rcases hx : f a with e | x <;> rw [hx] at h
  · cases h
  · unfold mapValsE at h
    cases h
    exact ⟨x, rfl, rfl⟩

theorem mapValsE_pair {α : Type} {f : α → Except GErr Int} {a1 a2 : α}
    {l : List Int} (h : mapValsE f [a1, a2] = .ok l) :
    ∃ x1 x2, f a1 = .ok x1 ∧ f a2 = .ok x2 ∧ l = [x1, x2] := by
  unfold mapValsE at h
  rcases hx : f a1 with e | x1 <;> rw [hx] at h
  · cases h
  · rcases hy : mapValsE f [a2] with e2 | l2 <;> rw [hy] at h
    · cases h
    · cases h
      obtain ⟨x2, hx2, hl2⟩ := mapValsE_singleton hy
      subst hl2
      exact ⟨x1, x2, rfl, hx2, rfl⟩

theorem gss_vals {s : BattleQueue} {b : Bool} {v : Int}
    (hov : is_over s = false) (hpk : peekSide s = some b)
    (hv : get_state_score s = .ok v) :
    ∃ l, mapValsE (achievedValue s)
        (get_available_actions (charOf s b)) = .ok l ∧
      l.max? = some v := by
  unfold get_state_score gssFuel at hv
  rw [hov] at hv
  simp only [Bool.false_eq_true, if_false] at hv
  rw [hpk] at hv
  dsimp only at hv
  have hfacts := not_over_facts hov
  have hFG : mapValsE (fun a =>
      let s2 := succState s b a
      reanchorE (charOf s b) s2 (gssFuel (hpSum s) s2))
      (get_available_actions (charOf s b)) =
      mapValsE (achievedValue s) (get_available_actions (charOf s b)) := by
    apply mapValsE_congr
    intro a ha
    have hlt := @hpSum_succState_lt s b a
      (mem_avail ha) hfacts.2.1 hfacts.2.2
    show reanchorE (charOf s b) (succState s b a)
        (gssFuel (hpSum s) (succState s b a)) = achievedValue s a
    unfold achievedValue
    rw [hpk]
    dsimp only
    rw [gssFuel_stable (by omega)]
  rw [hFG] at hv
  rcases hm : mapValsE (achievedValue s)
      (get_available_actions (charOf s b)) with e | l <;> rw [hm] at hv <;>
    dsimp only at hv
  · cases hv
  · rcases hmax : l.max? with _ | m <;> rw [hmax] at hv
    · cases hv
    · cases hv
      exact ⟨l, rfl, hmax⟩

theorem select_attack_exact (s : BattleQueue) (hwf : wfNames s)
    (hov : is_over s = false) {b : Bool} (hpk : peekSide s = some b)
    (hacts : get_available_actions (charOf s b) ≠ []) {v : Int}
    (hv : get_state_score s = .ok v) :
    ∃ a, RecursiveMinimax.select_attack s = .ok a ∧
      a ∈ get_available_actions (charOf s b) ∧
      achievedValue s a = .ok v := by
  obtain ⟨l, hm, hmax⟩ := gss_vals hov hpk hv
  unfold RecursiveMinimax.select_attack
  rw [hpk]
  dsimp only
  rcases hae : get_available_actions (charOf s b) with _ | ⟨a1, rest1⟩
  · exact absurd hae hacts
  rw [hae] at hm
  rcases avail_sub (charOf s b) with hav | hav | hav
  · exact absurd hav hacts
  · -- only the basic attack is available
    rw [hav] at hae
    cases hae
    obtain ⟨xA, hachA, hl⟩ := mapValsE_singleton hm
    subst hl
    have hvx : v = xA := by
      have : ([xA] : List Int).max? = some xA := rfl
      rw [this] at hmax
      cases hmax
      rfl
    simp only [List.isEmpty_cons, Bool.false_eq_true, if_false]
    rw [hv]
    dsimp only [Except.bind]
    rw [branchA_result hwf hov hpk hachA v ["A"] []]
    rw [if_pos hvx.symm]
    exact ⟨"A", rfl, by simp, hvx ▸ hachA⟩
  · -- both actions are available
    rw [hav] at hae
    cases hae
    obtain ⟨xA, xS, hachA, hachS, hl⟩ := mapValsE_pair hm
    subst hl
    have hvx : v = max xA xS := by
      have : ([xA, xS] : List Int).max? = some (max xA xS) := rfl
      rw [this] at hmax
      cases hmax
      rfl
    simp only [List.isEmpty_cons, Bool.false_eq_true, if_false]
    rw [hv]
    dsimp only [Except.bind]
    rw [branchA_result hwf hov hpk hachA v ["A", "S"] ["S"]]
    by_cases hxa : xA = v
    · rw [if_pos hxa]
      exact ⟨"A", rfl, by simp, hxa ▸ hachA⟩
    · rw [if_neg hxa]
      have hcs : (["A", "S"].contains "S") = true := rfl
      rw [hcs]
      simp only [if_true]
      have hxs : xS = v := by
        rcases max_choice xA xS with hc | hc
        · rw [hvx] at hxa
          exact absurd hc.symm hxa
        · rw [hvx, hc]
      exact ⟨"S", rfl, by simp, hxs ▸ hachS⟩


theorem arenaExt_refl (a : Array TOSNode) : arenaExt a a :=
  ⟨le_refl _, fun _ _ => rfl⟩

theorem arenaExt_trans {a b c : Array TOSNode} (h1 : arenaExt a b)
    (h2 : arenaExt b c) : arenaExt a c :=
  ⟨le_trans h1.1 h2.1, fun j hj => (h2.2 j (lt_of_lt_of_le hj h1.1)).trans
    (h1.2 j hj)⟩

theorem arenaExt_push (a : Array TOSNode) (c : TOSNode) :
    arenaExt a (a.push c) :=
  ⟨by simp, fun j hj =>
    (Array.getElem?_push_lt a c j hj).trans (Array.getElem?_lt a hj).symm⟩

theorem lt_size_of_get {α : Type} {a : Array α} {j : Nat} {n : α}
    (h : a[j]? = some n) : j < a.size := by
  by_contra hc
  rw [Array.getElem?_ge a (Nat.le_of_not_lt hc)] at h
  cases h

theorem nodesOk_mono_arena {a b : Array TOSNode} {bound : Nat}
    {ids : List Nat} (hext : arenaExt a b) (h : nodesOk a bound ids) :
    nodesOk b bound ids := by
  intro id hid
  obtain ⟨n, hn, hhp⟩ := h id hid
  exact ⟨n, (hext.2 id (lt_size_of_get hn)).trans hn, hhp⟩

theorem nodesOk_mono_bound {a : Array TOSNode} {b1 b2 : Nat}
    {ids : List Nat} (h12 : b1 ≤ b2) (h : nodesOk a b1 ids) :
    nodesOk a b2 ids := by
  intro id hid
  obtain ⟨n, hn, hhp⟩ := h id hid
  exact ⟨n, hn, by omega⟩

theorem nodesOk_append {a : Array TOSNode} {bound : Nat}
    {ids1 ids2 : List Nat} (h1 : nodesOk a bound ids1)
    (h2 : nodesOk a bound ids2) : nodesOk a bound (ids1 ++ ids2) := by
  intro id hid
  rcases List.mem_append.mp hid with h | h
  · exact h1 id h
  · exact h2 id h

theorem gcauStep_ext (t : TOSNode) (i : Nat) (acc : Array TOSNode × List Nat)
    (a : String) : arenaExt acc.1 (gcauStep t i acc a).1 := by
  unfold gcauStep
  dsimp only
  split
  · exact arenaExt_refl _
  · exact arenaExt_push _ _

theorem hpSum_gcauBq2 (t : TOSNode) (a : String) :
    hpSum (gcauBq2 t a) = hpSum (useSkill t.battle_q t.caster a) := by
  unfold gcauBq2
  dsimp only
  split
  · exact hpSum_removeFront _
  · rfl

theorem gcauStep_spec (t : TOSNode) (i : Nat) (acc : Array TOSNode × List Nat)
    {a : String} (ha : a = "A" ∨ a = "S")
    (hov : is_over t.battle_q = false) :
    gcauStep t i acc a = acc ∨
    ∃ c, gcauStep t i acc a = (acc.1.push c, acc.2 ++ [acc.1.size]) ∧
      hpSum c.battle_q < hpSum t.battle_q := by
  have hfacts := not_over_facts hov
  have hlt : hpSum (useSkill t.battle_q t.caster a) < hpSum t.battle_q :=
    hpSum_useSkill_lt ha hfacts.2.1 hfacts.2.2
  unfold gcauStep
  dsimp only
  split
  · exact Or.inl rfl
  · refine Or.inr ⟨_, rfl, ?_⟩
    dsimp only
    rw [hpSum_gcauBq2]
    exact hlt

theorem gcauFold_ext (t : TOSNode) (i : Nat) :
    ∀ (l : List String) (acc : Array TOSNode × List Nat),
      arenaExt acc.1 ((l.foldl (gcauStep t i) acc).1) := by
  intro l
  induction l with
  | nil => intro acc; exact arenaExt_refl _
  | cons x xs ih =>
    intro acc
    exact arenaExt_trans (gcauStep_ext t i acc x) (ih (gcauStep t i acc x))

theorem gcauFold_kidsOk (t : TOSNode) (i : Nat)
    (hov : is_over t.battle_q = false) :
    ∀ (l : List String), (∀ a ∈ l, a = "A" ∨ a = "S") →
    ∀ (acc : Array TOSNode × List Nat),
      nodesOk acc.1 (hpSum t.battle_q) acc.2 →
      nodesOk ((l.foldl (gcauStep t i) acc).1) (hpSum t.battle_q)
        ((l.foldl (gcauStep t i) acc).2) := by
  intro l
  induction l with
  | nil => intro _ acc h; exact h
  | cons x xs ih =>
    intro hmem acc hacc
    apply ih (fun a ha => hmem a (by simp [ha]))
    rcases gcauStep_spec t i acc (hmem x (by simp)) hov with hcase | ⟨c, hc, hhp⟩
    · rw [hcase]; exact hacc
    · rw [hc]
      apply nodesOk_append
      · exact nodesOk_mono_arena (arenaExt_push _ _) hacc
      · intro id hid
        rcases List.mem_singleton.mp hid with rfl
        exact ⟨c, Array.getElem?_push_eq _ _, hhp⟩

theorem gcauExpand_ext (arena : Array TOSNode) (i : Nat) :
    arenaExt arena (gcauExpand arena i).1 := by
  unfold gcauExpand
  rcases hi : arena[i]? with _ | t
  · exact arenaExt_refl _
  · dsimp only
    split
    · exact arenaExt_refl _
    · exact gcauFold_ext t i _ (arena, [])

theorem gcauExpand_kidsOk {arena : Array TOSNode} {i : Nat} {n : TOSNode}
    (hn : arena[i]? = some n) :
    nodesOk (gcauExpand arena i).1 (hpSum n.battle_q)
      (gcauExpand arena i).2 := by
  unfold gcauExpand
  rw [hn]
  dsimp only
  split
  · intro id hid; cases hid
  · rename_i hov
    apply gcauFold_kidsOk n i (by simpa using hov) _
      (fun a ha => mem_avail ha) (arena, [])
    intro id hid
    cases hid

theorem expandFrontier_ext (arena : Array TOSNode) (ids : List Nat) :
    arenaExt arena (expandFrontier arena ids).1 := by
  unfold expandFrontier
  suffices h : ∀ (acc : Array TOSNode × List Nat),
      arenaExt acc.1 ((ids.foldl (fun acc i =>
        ((gcauExpand acc.1 i).1, acc.2 ++ (gcauExpand acc.1 i).2)) acc).1) by
    exact h (arena, [])
  induction ids with
  | nil => intro acc; exact arenaExt_refl _
  | cons x xs ih =>
    intro acc
    rw [List.foldl_cons]
    exact arenaExt_trans (gcauExpand_ext acc.1 x)
      (ih ((gcauExpand acc.1 x).1, acc.2 ++ (gcauExpand acc.1 x).2))

theorem expandFrontier_kidsOk {arena : Array TOSNode} {bound : Nat}
    {ids : List Nat} (h : nodesOk arena bound ids) :
    nodesOk (expandFrontier arena ids).1 (bound - 1)
      (expandFrontier arena ids).2 := by
  unfold expandFrontier
  suffices hgen : ∀ (l : List Nat) (acc : Array TOSNode × List Nat),
      nodesOk acc.1 bound l → nodesOk acc.1 (bound - 1) acc.2 →
      nodesOk ((l.foldl (fun acc i =>
        ((gcauExpand acc.1 i).1, acc.2 ++ (gcauExpand acc.1 i).2)) acc).1)
        (bound - 1)
        ((l.foldl (fun acc i =>
          ((gcauExpand acc.1 i).1, acc.2 ++ (gcauExpand acc.1 i).2)) acc).2) by
    exact hgen ids (arena, []) h (fun id hid => by cases hid)
  intro l
  induction l with
  | nil => intro acc _ h2; exact h2
  | cons x xs ih =>
    intro acc hl hacc
    obtain ⟨n, hn, hhp⟩ := hl x (by simp)
    have hext := gcauExpand_ext acc.1 x
    apply ih
    · exact nodesOk_mono_arena hext (fun id hid => hl id (by simp [hid]))
    · apply nodesOk_append
      · exact nodesOk_mono_arena hext hacc
      · exact nodesOk_mono_bound (by omega) (gcauExpand_kidsOk hn)

theorem recordPath_arena (st : TreeSt) (c : Nat) :
    (IterativeMinimax.recordPath st c).arena = st.arena := by
  unfold IterativeMinimax.recordPath
  rcases st.arena[c]? with _ | cn
  · rfl
  · dsimp only
    split <;> rfl

theorem foldl_recordPath_arena (ids : List Nat) :
    ∀ (st : TreeSt), (ids.foldl IterativeMinimax.recordPath st).arena =
      st.arena := by
  induction ids with
  | nil => intro st; rfl
  | cons x xs ih =>
    intro st
    rw [List.foldl_cons, ih, recordPath_arena]

theorem firstPath_arena (st : TreeSt) (c : Nat) :
    (IterativeMinimax.firstPath st c).arena = st.arena := by
  unfold IterativeMinimax.firstPath
  rcases st.arena[c]? with _ | cn
  · rfl
  · dsimp only
    split
    · split <;> rfl
    · rfl

theorem foldl_firstPath_arena (ids : List Nat) :
    ∀ (st : TreeSt), (ids.foldl IterativeMinimax.firstPath st).arena =
      st.arena := by
  induction ids with
  | nil => intro st; rfl
  | cons x xs ih =>
    intro st
    rw [List.foldl_cons, ih, firstPath_arena]

theorem bfsLoop_ok :
    ∀ (fuel : Nat) (st : TreeSt) (tloc : List Nat),
      nodesOk st.arena fuel tloc →
      ∃ st2, IterativeMinimax.bfsLoop fuel st tloc = .ok st2 := by
  intro fuel
  induction fuel with
  | zero =>
    intro st tloc h
    rcases tloc with _ | ⟨x, xs⟩
    · exact ⟨st, rfl⟩
    · obtain ⟨n, _, hhp⟩ := h x (by simp)
      omega
  | succ fuel ih =>
    intro st tloc h
    unfold IterativeMinimax.bfsLoop
    by_cases hemp : tloc.isEmpty = true
    · rw [if_pos hemp]
      exact ⟨st, rfl⟩
    · rw [if_neg hemp]
      dsimp only
      apply ih
      rw [foldl_recordPath_arena]
      exact nodesOk_mono_bound (by omega) (expandFrontier_kidsOk h)

theorem buildTree_ok {s : BattleQueue} (hne : s.content ≠ []) :
    ∃ st, IterativeMinimax.buildTree (hpSum s + 2) s = .ok st := by
  obtain ⟨b, hb⟩ := peek_of_ne hne
  unfold IterativeMinimax.buildTree
  rw [hb]
  dsimp only
  apply bfsLoop_ok
  rw [foldl_firstPath_arena]
  show nodesOk (gcauExpand #[⟨s, b, none, none, none, []⟩] 0).1 (hpSum s + 2)
    (gcauExpand #[⟨s, b, none, none, none, []⟩] 0).2
  apply @nodesOk_mono_bound _ (hpSum s) _ _
  · omega
  · exact @gcauExpand_kidsOk #[⟨s, b, none, none, none, []⟩] 0
      ⟨s, b, none, none, none, []⟩ rfl

theorem gcauStep_child_score (t : TOSNode) (i : Nat)
    (acc : Array TOSNode × List Nat) (a : String) :
    gcauStep t i acc a = acc ∨
    ∃ c, gcauStep t i acc a = (acc.1.push c, acc.2 ++ [acc.1.size]) ∧
      scoreRule c := by
  unfold gcauStep
  dsimp only
  split
  · exact Or.inl rfl
  · rename_i cs hpk
    refine Or.inr ⟨_, rfl, ?_⟩
    unfold scoreRule
    dsimp only
    rcases hw : get_winner (gcauBq2 t a) with _ | w
    · by_cases hov : is_over (gcauBq2 t a) = true
      · refine Or.inr (Or.inl ⟨rfl, hov, ?_⟩)
        dsimp only
        rw [if_pos hov]
      · refine Or.inr (Or.inr ⟨rfl, by simpa using hov, ?_⟩)
        dsimp only
        rw [if_neg hov]
    · exact Or.inl ⟨w, rfl, rfl⟩

theorem childScoreOk_mono {a b : Array TOSNode} {ids : List Nat}
    (hext : arenaExt a b) (h : childScoreOk a ids) : childScoreOk b ids := by
  intro id hid
  obtain ⟨n, hn, hr⟩ := h id hid
  exact ⟨n, (hext.2 id (lt_size_of_get hn)).trans hn, hr⟩

theorem gcauFold_scoreOk (t : TOSNode) (i : Nat) :
    ∀ (l : List String) (acc : Array TOSNode × List Nat),
      childScoreOk acc.1 acc.2 →
      childScoreOk ((l.foldl (gcauStep t i) acc).1)
        ((l.foldl (gcauStep t i) acc).2) := by
  intro l
  induction l with
  | nil => intro acc h; exact h
  | cons x xs ih =>
    intro acc hacc
    apply ih
    rcases gcauStep_child_score t i acc x with hcase | ⟨c, hc, hr⟩
    · rw [hcase]; exact hacc
    · rw [hc]
      intro id hid
      rcases List.mem_append.mp hid with h | h
      · obtain ⟨n, hn, hrn⟩ := hacc id h
        exact ⟨n, ((arenaExt_push acc.1 c).2 id (lt_size_of_get hn)).trans hn,
          hrn⟩
      · rcases List.mem_singleton.mp h with rfl
        exact ⟨c, Array.getElem?_push_eq _ _, hr⟩

theorem gcauExpand_scoreOk (arena : Array TOSNode) (i : Nat) :
    childScoreOk (gcauExpand arena i).1 (gcauExpand arena i).2 := by
  unfold gcauExpand
  rcases hi : arena[i]? with _ | t
  · intro id hid; cases hid
  · dsimp only
    split
    · intro id hid; cases hid
    · exact gcauFold_scoreOk t i _ (arena, []) (fun id hid => by cases hid)

theorem setD_get_ne {α : Type} (a : Array α) (i j : Nat) (x : α)
    (h : i ≠ j) : (a.setD i x)[j]? = a[j]? := by
  unfold Array.setD
  split
  · exact Array.getElem?_set_ne _ _ _ h
  · rfl

theorem setScore_entry0 {paths : Array (Array PEntry)} {p q : Nat}
    {sc : List Int} (hq : 1 ≤ q) (p0 : Nat) :
    entry0 (IterativeMinimax.setScore paths p q sc) p0 = entry0 paths p0 := by
  unfold IterativeMinimax.setScore
  rcases hp : paths[p]? with _ | row
  · rfl
  · dsimp only
    rcases hq2 : row[q]? with _ | e
    · rfl
    · dsimp only
      unfold entry0
      by_cases hpp : p = p0
      · subst hpp
        have hlt : p < paths.size := lt_size_of_get hp
        rw [Array.getElem?_setD_eq _ hlt, hp]
        show (row.setD q _)[0]? = row[0]?
        exact setD_get_ne _ _ _ _ (by omega)
      · rw [setD_get_ne _ _ _ _ hpp]

theorem pushPos_entry0 {sc : List Int} {st : TreeSt} {pos : Nat × Nat}
    (hpos : 1 ≤ pos.2) (p0 : Nat) :
    entry0 (IterativeMinimax.pushPos sc st pos).possible_paths p0 =
      entry0 st.possible_paths p0 := by
  unfold IterativeMinimax.pushPos
  exact setScore_entry0 hpos p0

theorem pushKv_entry0 {pn : Nat} {sc : List Int} {st : TreeSt}
    {kv : SnKey × List (Nat × Nat)} (hkv : ∀ p ∈ kv.2, 1 ≤ p.2) (p0 : Nat) :
    entry0 (IterativeMinimax.pushKv pn sc st kv).possible_paths p0 =
      entry0 st.possible_paths p0 := by
  unfold IterativeMinimax.pushKv
  split
  · suffices hgen : ∀ (l : List (Nat × Nat)) (st : TreeSt),
        (∀ p ∈ l, 1 ≤ p.2) →
        entry0 ((l.foldl (IterativeMinimax.pushPos sc) st).possible_paths) p0 =
          entry0 st.possible_paths p0 by
      exact hgen kv.2 st hkv
    intro l
    induction l with
    | nil => intro st _; rfl
    | cons x xs ih =>
      intro st hl
      rw [List.foldl_cons, ih _ (fun p hp => hl p (by simp [hp])),
        pushPos_entry0 (hl x (by simp)) p0]
  · rfl

theorem pushOuts_entry0 {st : TreeSt} {pn : Nat} {sc : List Int}
    (hsn : snppcPosOk st.snppc) (p0 : Nat) :
    entry0 (IterativeMinimax.pushOuts st pn sc).possible_paths p0 =
      entry0 st.possible_paths p0 := by
  unfold IterativeMinimax.pushOuts
  suffices hgen : ∀ (l : List (SnKey × List (Nat × Nat))) (st : TreeSt),
      (∀ kv ∈ l, ∀ p ∈ kv.2, 1 ≤ p.2) →
      entry0 ((l.foldl (IterativeMinimax.pushKv pn sc) st).possible_paths)
        p0 = entry0 st.possible_paths p0 by
    exact hgen st.snppc st hsn
  intro l
  induction l with
  | nil => intro st _; rfl
  | cons x xs ih =>
    intro st2 hl
    rw [List.foldl_cons, ih _ (fun kv hkv => hl kv (by simp [hkv])),
      pushKv_entry0 (hl x (by simp)) p0]

theorem pushPos_frame (sc : List Int) (st : TreeSt) (pos : Nat × Nat) :
    (IterativeMinimax.pushPos sc st pos).arena = st.arena ∧
    (IterativeMinimax.pushPos sc st pos).rootChildren = st.rootChildren ∧
    (IterativeMinimax.pushPos sc st pos).snppc = st.snppc :=
  ⟨rfl, rfl, rfl⟩

theorem foldl_pushPos_frame (sc : List Int) :
    ∀ (l : List (Nat × Nat)) (st : TreeSt),
      ((l.foldl (IterativeMinimax.pushPos sc) st).arena = st.arena ∧
       (l.foldl (IterativeMinimax.pushPos sc) st).rootChildren =
         st.rootChildren ∧
       (l.foldl (IterativeMinimax.pushPos sc) st).snppc = st.snppc) := by
  intro l
  induction l with
  | nil => intro st; exact ⟨rfl, rfl, rfl⟩
  | cons x xs ih =>
    intro st
    rw [List.foldl_cons]
    exact ih (IterativeMinimax.pushPos sc st x)

theorem pushKv_frame (pn : Nat) (sc : List Int) (st : TreeSt)
    (kv : SnKey × List (Nat × Nat)) :
    (IterativeMinimax.pushKv pn sc st kv).arena = st.arena ∧
    (IterativeMinimax.pushKv pn sc st kv).rootChildren = st.rootChildren ∧
    (IterativeMinimax.pushKv pn sc st kv).snppc = st.snppc := by
  unfold IterativeMinimax.pushKv
  split
  · exact foldl_pushPos_frame sc kv.2 st
  · exact ⟨rfl, rfl, rfl⟩

theorem pushOuts_frame (st : TreeSt) (pn : Nat) (sc : List Int) :
    (IterativeMinimax.pushOuts st pn sc).arena = st.arena ∧
    (IterativeMinimax.pushOuts st pn sc).rootChildren = st.rootChildren ∧
    (IterativeMinimax.pushOuts st pn sc).snppc = st.snppc := by
  unfold IterativeMinimax.pushOuts
  suffices hgen : ∀ (l : List (SnKey × List (Nat × Nat))) (st : TreeSt),
      ((l.foldl (IterativeMinimax.pushKv pn sc) st).arena = st.arena ∧
       (l.foldl (IterativeMinimax.pushKv pn sc) st).rootChildren =
         st.rootChildren ∧
       (l.foldl (IterativeMinimax.pushKv pn sc) st).snppc = st.snppc) by
    exact hgen st.snppc st
  intro l
  induction l with
  | nil => intro st; exact ⟨rfl, rfl, rfl⟩
  | cons x xs ih =>
    intro st2
    rw [List.foldl_cons]
    obtain ⟨h1, h2, h3⟩ := ih (IterativeMinimax.pushKv pn sc st2 x)
    obtain ⟨g1, g2, g3⟩ := pushKv_frame pn sc st2 x
    exact ⟨h1.trans g1, h2.trans g2, h3.trans g3⟩

theorem assignStep_frame (st : TreeSt) (pIdx i : Nat) :
    (IterativeMinimax.assignStep st pIdx i).1.arena = st.arena ∧
    (IterativeMinimax.assignStep st pIdx i).1.rootChildren =
      st.rootChildren ∧
    (IterativeMinimax.assignStep st pIdx i).1.snppc = st.snppc := by
  unfold IterativeMinimax.assignStep
  rcases st.possible_paths[pIdx]? with _ | path
  · exact ⟨rfl, rfl, rfl⟩
  · dsimp only
    rcases path[i]? with _ | child
    · exact ⟨rfl, rfl, rfl⟩
    rcases path[i+1]? with _ | parent
    · exact ⟨rfl, rfl, rfl⟩
    dsimp only
    by_cases h1 : child.score ≠ [] ∧ parent.score ≠ []
    · rw [if_pos h1]
      exact ⟨rfl, rfl, rfl⟩
    · rw [if_neg h1]
      by_cases h2 : child.score ≠ [] ∧ parent.score = []
      · rw [if_pos h2]
        by_cases h3 : availTwoAt st.arena parent.node = true
        · rw [if_pos h3]
          exact pushOuts_frame _ _ _
        · rw [if_neg h3]
          exact ⟨rfl, rfl, rfl⟩
      · rw [if_neg h2]
        exact ⟨rfl, rfl, rfl⟩

theorem assignStep_entry0 {st : TreeSt} (hsn : snppcPosOk st.snppc)
    (pIdx i : Nat) (p0 : Nat) :
    entry0 (IterativeMinimax.assignStep st pIdx i).1.possible_paths p0 =
      entry0 st.possible_paths p0 := by
  unfold IterativeMinimax.assignStep
  rcases st.possible_paths[pIdx]? with _ | path
  · rfl
  · dsimp only
    rcases path[i]? with _ | child
    · rfl
    rcases path[i+1]? with _ | parent
    · rfl
    dsimp only
    by_cases h1 : child.score ≠ [] ∧ parent.score ≠ []
    · rw [if_pos h1]
      exact setScore_entry0 (by omega) p0
    · rw [if_neg h1]
      by_cases h2 : child.score ≠ [] ∧ parent.score = []
      · rw [if_pos h2]
        by_cases h3 : availTwoAt st.arena parent.node = true
        · rw [if_pos h3]
          dsimp only
          trans entry0 (IterativeMinimax.setScore st.possible_paths pIdx
            (i + 1) (if casterName st.arena child.node =
              casterName st.arena parent.node then child.score
            else [-(child.score.headD 0)])) p0
          · apply pushOuts_entry0 _ p0
            exact hsn
          · exact setScore_entry0 (by omega) p0
        · rw [if_neg h3]
          exact setScore_entry0 (by omega) p0
      · rw [if_neg h2]

theorem assignPathGo_props (pIdx : Nat) :
    ∀ (fuel : Nat) (st : TreeSt) (i : Nat), snppcPosOk st.snppc →
      ((IterativeMinimax.assignPathGo st pIdx fuel i).arena = st.arena ∧
       (IterativeMinimax.assignPathGo st pIdx fuel i).rootChildren =
         st.rootChildren ∧
       (IterativeMinimax.assignPathGo st pIdx fuel i).snppc = st.snppc ∧
       ∀ p0, entry0 (IterativeMinimax.assignPathGo st pIdx fuel i
         ).possible_paths p0 = entry0 st.possible_paths p0) := by
  intro fuel
  induction fuel with
  | zero => intro st i hsn; exact ⟨rfl, rfl, rfl, fun _ => rfl⟩
  | succ fuel ih =>
    intro st i hsn
    unfold IterativeMinimax.assignPathGo
    rcases hpp : st.possible_paths[pIdx]? with _ | path
    · exact ⟨rfl, rfl, rfl, fun _ => rfl⟩
    · dsimp only
      split
      · obtain ⟨f1, f2, f3⟩ := assignStep_frame st pIdx i
        have he := assignStep_entry0 hsn pIdx i
        split
        · exact ⟨f1, f2, f3, he⟩
        · have hsn2 : snppcPosOk (IterativeMinimax.assignStep st pIdx
              i).1.snppc := by rw [f3]; exact hsn
          obtain ⟨g1, g2, g3, g4⟩ := ih (IterativeMinimax.assignStep st
            pIdx i).1 (i + 1) hsn2
          exact ⟨g1.trans f1, g2.trans f2, g3.trans f3,
            fun p0 => (g4 p0).trans (he p0)⟩
      · exact ⟨rfl, rfl, rfl, fun _ => rfl⟩

theorem assignPath_props (st : TreeSt) (pIdx : Nat)
    (hsn : snppcPosOk st.snppc) :
    (IterativeMinimax.assignPath st pIdx).arena = st.arena ∧
    (IterativeMinimax.assignPath st pIdx).rootChildren = st.rootChildren ∧
    (IterativeMinimax.assignPath st pIdx).snppc = st.snppc ∧
    ∀ p0, entry0 (IterativeMinimax.assignPath st pIdx).possible_paths p0 =
      entry0 st.possible_paths p0 := by
  unfold IterativeMinimax.assignPath
  exact assignPathGo_props pIdx _ st 0 hsn

theorem assignScores_props (st : TreeSt) (hsn : snppcPosOk st.snppc) :
    (IterativeMinimax.assignScores st).arena = st.arena ∧
    (IterativeMinimax.assignScores st).rootChildren = st.rootChildren ∧
    (IterativeMinimax.assignScores st).snppc = st.snppc ∧
    ∀ p0, entry0 (IterativeMinimax.assignScores st).possible_paths p0 =
      entry0 st.possible_paths p0 := by
  unfold IterativeMinimax.assignScores
  suffices hgen : ∀ (l : List Nat) (st : TreeSt), snppcPosOk st.snppc →
      ((l.foldl IterativeMinimax.assignPath st).arena = st.arena ∧
       (l.foldl IterativeMinimax.assignPath st).rootChildren =
         st.rootChildren ∧
       (l.foldl IterativeMinimax.assignPath st).snppc = st.snppc ∧
       ∀ p0, entry0 ((l.foldl IterativeMinimax.assignPath st).possible_paths)
         p0 = entry0 st.possible_paths p0) by
    exact hgen _ st hsn
  intro l
  induction l with
  | nil => intro st _; exact ⟨rfl, rfl, rfl, fun _ => rfl⟩
  | cons x xs ih =>
    intro st2 hsn2
    rw [List.foldl_cons]
    obtain ⟨f1, f2, f3, f4⟩ := assignPath_props st2 x hsn2
    have hsn3 : snppcPosOk (IterativeMinimax.assignPath st2 x).snppc := by
      rw [f3]; exact hsn2
    obtain ⟨g1, g2, g3, g4⟩ := ih (IterativeMinimax.assignPath st2 x) hsn3
    exact ⟨g1.trans f1, g2.trans f2, g3.trans f3,
      fun p0 => (g4 p0).trans (f4 p0)⟩

theorem snSet_posOk {sn : List (SnKey × List (Nat × Nat))} {k : SnKey}
    {v : List (Nat × Nat)} (hsn : snppcPosOk sn) (hv : ∀ p ∈ v, 1 ≤ p.2) :
    snppcPosOk (snSet sn k v) := by
  induction sn with
  | nil =>
    intro kv hkv
    rcases List.mem_singleton.mp hkv with rfl
    exact hv
  | cons x xs ih =>
    unfold snSet
    split
    · intro kv hkv
      rcases List.mem_cons.mp hkv with rfl | h
      · exact hv
      · exact hsn kv (by simp [h])
    · intro kv hkv
      rcases List.mem_cons.mp hkv with rfl | h
      · exact hsn x (by simp)
      · exact ih (fun kv2 hkv2 => hsn kv2 (by simp [hkv2])) kv h

theorem snPush_posOk {sn : List (SnKey × List (Nat × Nat))} {k : SnKey}
    {pos : Nat × Nat} (hsn : snppcPosOk sn) (hpos : 1 ≤ pos.2) :
    snppcPosOk (snPush sn k pos) := by
  induction sn with
  | nil =>
    intro kv hkv
    rcases List.mem_singleton.mp hkv with rfl
    intro p hp
    rcases List.mem_singleton.mp hp with rfl
    exact hpos
  | cons x xs ih =>
    unfold snPush
    split
    · intro kv hkv
      rcases List.mem_cons.mp hkv with rfl | h
      · intro p hp
        rcases List.mem_append.mp hp with h2 | h2
        · exact hsn x (by simp) p h2
        · rcases List.mem_singleton.mp h2 with rfl
          exact hpos
      · exact hsn kv (by simp [h])
    · intro kv hkv
      rcases List.mem_cons.mp hkv with rfl | h
      · exact hsn x (by simp)
      · exact ih (fun kv2 hkv2 => hsn kv2 (by simp [hkv2])) kv h

theorem walkUp_posOk (arena : Array TOSNode) (np : Nat) :
    ∀ (fuel cur : Nat) (path : Array PEntry)
      (sn : List (SnKey × List (Nat × Nat))), 1 ≤ path.size →
      snppcPosOk sn →
      snppcPosOk (IterativeMinimax.walkUp arena np fuel cur path sn).2 := by
  intro fuel
  induction fuel with
  | zero => intro cur path sn _ hsn; exact hsn
  | succ fuel ih =>
    intro cur path sn hpath hsn
    unfold IterativeMinimax.walkUp
    rcases arena[cur]? with _ | cn
    · exact hsn
    · dsimp only
      rcases cn.lastRound with _ | p
      · exact hsn
      · dsimp only
        split
        · apply ih
          · simp
          · apply snPush_posOk hsn
            simp only [Array.size_push]
            omega
        · apply ih
          · simp
          · exact hsn

theorem recordPath_posOk {st : TreeSt} (hsn : snppcPosOk st.snppc)
    (c : Nat) : snppcPosOk (IterativeMinimax.recordPath st c).snppc := by
  unfold IterativeMinimax.recordPath
  rcases st.arena[c]? with _ | cn
  · exact hsn
  · dsimp only
    split
    · exact walkUp_posOk st.arena st.possible_paths.size st.arena.size c _
        st.snppc (by simp) hsn
    · exact hsn

theorem firstPath_posOk {st : TreeSt} (hsn : snppcPosOk st.snppc)
    (c : Nat) : snppcPosOk (IterativeMinimax.firstPath st c).snppc := by
  unfold IterativeMinimax.firstPath
  rcases st.arena[c]? with _ | cn
  · exact hsn
  · dsimp only
    split
    · split
      · apply snSet_posOk hsn
        intro p hp
        rcases List.mem_singleton.mp hp with rfl
        omega
      · exact hsn
    · exact hsn

theorem foldl_recordPath_posOk (ids : List Nat) :
    ∀ (st : TreeSt), snppcPosOk st.snppc →
      snppcPosOk ((ids.foldl IterativeMinimax.recordPath st).snppc) := by
  induction ids with
  | nil => intro st h; exact h
  | cons x xs ih =>
    intro st h
    rw [List.foldl_cons]
    exact ih _ (recordPath_posOk h x)

theorem foldl_firstPath_posOk (ids : List Nat) :
    ∀ (st : TreeSt), snppcPosOk st.snppc →
      snppcPosOk ((ids.foldl IterativeMinimax.firstPath st).snppc) := by
  induction ids with
  | nil => intro st h; exact h
  | cons x xs ih =>
    intro st h
    rw [List.foldl_cons]
    exact ih _ (firstPath_posOk h x)

theorem bfsLoop_posOk :
    ∀ (fuel : Nat) (st : TreeSt) (tloc : List Nat) (st2 : TreeSt),
      snppcPosOk st.snppc → IterativeMinimax.bfsLoop fuel st tloc = .ok st2 →
      snppcPosOk st2.snppc := by
  intro fuel
  induction fuel with
  | zero =>
    intro st tloc st2 hsn h
    unfold IterativeMinimax.bfsLoop at h
    split at h
    · cases h; exact hsn
    · cases h
  | succ fuel ih =>
    intro st tloc st2 hsn h
    unfold IterativeMinimax.bfsLoop at h
    split at h
    · cases h; exact hsn
    · dsimp only at h
      exact ih _ _ _ (foldl_recordPath_posOk (expandFrontier st.arena tloc).2
        { st with arena := (expandFrontier st.arena tloc).1 } hsn) h

theorem buildTree_posOk {fuel : Nat} {s : BattleQueue} {st : TreeSt}
    (h : IterativeMinimax.buildTree fuel s = .ok st) :
    snppcPosOk st.snppc := by
  unfold IterativeMinimax.buildTree at h
  rcases hpk : peekSide s with _ | b <;> rw [hpk] at h
  · cases h
  · dsimp only at h
    apply bfsLoop_posOk fuel _ _ _ _ h
    apply foldl_firstPath_posOk
    intro kv hkv
    cases hkv

theorem bfsLoop_nil (fuel : Nat) (st : TreeSt) :
    IterativeMinimax.bfsLoop fuel st [] = .ok st := by
  cases fuel <;> rfl

theorem gcauExpand_root_noActs {s : BattleQueue} {b : Bool}
    (hav : get_available_actions (charOf s b) = []) :
    gcauExpand #[⟨s, b, none, none, none, []⟩] 0 =
      (#[⟨s, b, none, none, none, []⟩], []) := by
  unfold gcauExpand
  have h0 : (#[(⟨s, b, none, none, none, []⟩ : TOSNode)])[0]? =
      some ⟨s, b, none, none, none, []⟩ := rfl
  rw [h0]
  dsimp only
  split
  · rfl
  · rw [hav, List.foldl_nil]

theorem iter_noMove_aux {s : BattleQueue} {b : Bool}
    (hpk : peekSide s = some b)
    (hav : get_available_actions (charOf s b) = []) :
    IterativeMinimax.select_attack s = .ok "X" := by
  unfold IterativeMinimax.select_attack
    IterativeMinimax.helper_assign_all_scores
    IterativeMinimax.helper_get_the_whole_tree IterativeMinimax.buildTree
  rw [hpk]
  dsimp only
  rw [gcauExpand_root_noActs hav]
  dsimp only
  rw [List.foldl_nil, bfsLoop_nil]
  rfl

theorem min?_spec {l : List Nat} {a : Nat} (h : l.min? = some a) :
    a ∈ l ∧ ∀ b ∈ l, a ≤ b :=
  (List.min?_eq_some_iff (fun a => le_refl a) (fun a b => min_choice a b)
    (fun _ _ _ => le_min_iff)).mp h

theorem collect_dedup (paths : List (List (Nat × Skill × Bool))) :
    ∀ acc : List (Nat × Skill),
      collectCands (acc.map Prod.snd) (acc.map Prod.fst) paths =
        ((dedupCands acc paths).map Prod.snd,
         (dedupCands acc paths).map Prod.fst) := by
  induction paths with
  | nil => intro acc; rfl
  | cons path rest ih =>
    intro acc
    unfold collectCands dedupCands
    rcases path with _ | ⟨e0, es⟩
    · exact ih acc
    · dsimp only
      split
      · simp
      · rcases hf : (e0 :: es).find? (fun e =>
            !e.2.2 && !((acc.map Prod.fst).contains e.1) &&
              !((acc.map Prod.snd).contains e.2.1)) with _ | e
        · rw [hf]
          exact ih acc
        · rw [hf]
          dsimp only
          have h2 := ih (acc ++ [(e.1, e.2.1)])
          rw [List.map_append, List.map_append] at h2
          exact h2

theorem foldl_lastMin (prios : List Nat) (m : Nat) :
    ∀ (l : List Nat) (pos : Nat), (∀ i ∈ l, i < prios.length) →
      ((∃ i ∈ l, prios.getD i 0 = m) ∨
        (pos < prios.length ∧ prios.getD pos 0 = m)) →
      (l.foldl (fun pos i => if prios.getD i 0 = m then i else pos) pos) <
          prios.length ∧
        prios.getD
          (l.foldl (fun pos i => if prios.getD i 0 = m then i else pos) pos)
          0 = m := by
  intro l
  induction l with
  | nil =>
    intro pos _ hd
    rcases hd with ⟨i, hi, _⟩ | h
    · cases hi
    · exact h
  | cons x xs ih =>
    intro pos hlt hd
    rw [List.foldl_cons]
    by_cases hx : prios.getD x 0 = m
    · rw [if_pos hx]
      exact ih x (fun i hi => hlt i (by simp [hi]))
        (Or.inr ⟨hlt x (by simp), hx⟩)
    · rw [if_neg hx]
      apply ih pos (fun i hi => hlt i (by simp [hi]))
      rcases hd with ⟨i, hi, hm⟩ | h
      · rcases List.mem_cons.mp hi with rfl | hi2
        · exact absurd hm hx
        · exact Or.inl ⟨i, hi2, hm⟩
      · exact Or.inr h

theorem pick_skill_dedup {t : SkillDecisionTree} {c tg : Character}
    {sk : Skill} (h : pick_skill t c tg = .ok sk) :
    ∃ pr, (pr, sk) ∈ dedupCands [] (helper_get_all_path t c tg) ∧
      ∀ e ∈ dedupCands [] (helper_get_all_path t c tg), pr ≤ e.1 := by
  unfold pick_skill at h
  have hcd := collect_dedup (helper_get_all_path t c tg) []
  simp only [List.map_nil] at hcd
  rw [hcd] at h
  dsimp only at h
  by_cases hcn : dedupCands [] (helper_get_all_path t c tg) = []
  · rw [hcn] at h
    exact Except.noConfusion h
  · set cands := dedupCands [] (helper_get_all_path t c tg) with hc
    have hne : cands.map Prod.fst ≠ [] := by
      simpa using hcn
    rcases hmin : (cands.map Prod.fst).min? with _ | m
    · exact absurd (List.min?_eq_none_iff.mp hmin) hne
    · rw [hmin] at h
      simp only [Option.getD_some] at h
      obtain ⟨hmem, hle⟩ := min?_spec hmin
      obtain ⟨j, hj, hjm⟩ := List.mem_iff_getElem.mp hmem
      have hjm2 : (cands.map Prod.fst).getD j 0 = m := by
        rw [List.getD_eq_getElem _ _ hj]
        exact hjm
      have hfold := foldl_lastMin (cands.map Prod.fst) m
        (List.range (cands.map Prod.fst).length) 0
        (fun i hi => List.mem_range.mp hi)
        (Or.inl ⟨j, List.mem_range.mpr hj, hjm2⟩)
      set pos := (List.range (cands.map Prod.fst).length).foldl
        (fun pos i => if (cands.map Prod.fst).getD i 0 = m then i else pos) 0
        with hposdef
      obtain ⟨hplt, hpm⟩ := hfold
      have hplt2 : pos < cands.length := by
        simpa using hplt
      have hsk : (cands.map Prod.snd)[pos]? = some cands[pos].2 := by
        rw [List.getElem?_eq_getElem (by simpa using hplt2)]
        simp
      rw [hsk] at h
      dsimp only at h
      injection h with heq
      subst heq
      refine ⟨cands[pos].1, ?_, ?_⟩
      · exact List.getElem_mem hplt2
      · intro e he
        have hpm2 : cands[pos].1 = m := by
          rw [List.getD_eq_getElem _ _ hplt] at hpm
          simpa using hpm
        rw [hpm2]
        exact hle e.1 (List.mem_map_of_mem Prod.fst he)

theorem collect_allTrue :
    ∀ (paths : List (List (Nat × Skill × Bool))) (sk : List Skill)
      (pr : List Nat), (∀ p ∈ paths, ∀ e ∈ p, e.2.2 = true) →
      collectCands sk pr paths = (sk, pr) := by
  intro paths
  induction paths with
  | nil => intro sk pr _; rfl
  | cons path rest ih =>
    intro sk pr H
    unfold collectCands
    rcases path with _ | ⟨e0, es⟩
    · exact ih sk pr (fun p hp => H p (by simp [hp]))
    · dsimp only
      have he0 : e0.2.2 = true := H (e0 :: es) (by simp) e0 (by simp)
      rw [if_neg (by simp [he0])]
      have hf : (e0 :: es).find? (fun e =>
          !e.2.2 && !(pr.contains e.1) && !(sk.contains e.2.1)) = none := by
        apply List.find?_eq_none.mpr
        intro e he
        have := H (e0 :: es) (by simp) e he
        simp [this]
      rw [hf]
      exact ih sk pr (fun p hp => H p (by simp [hp]))

theorem pick_skill_allTrue {t : SkillDecisionTree} {c tg : Character}
    (H : ∀ p ∈ helper_get_all_path t c tg, ∀ e ∈ p, e.2.2 = true) :
    pick_skill t c tg = .error .indexError := by
  unfold pick_skill
  rw [collect_allTrue _ [] [] H]
  rfl

/-! ## The claims -/

/-- C1 (evaluation at the failing input): on the reachable non-terminal
state `cexC1`, whose front actor has both actions available, the
recursive selector returns "S", achieving the exact state value −9,
while the iterative selector returns "A", achieving only −14 — the two
selectors do not resolve to the same value. -/
theorem mm_C1_eval :
    is_over cexC1 = false ∧
    peekSide cexC1 = some false ∧
    get_available_actions (charOf cexC1 false) = ["A", "S"] ∧
    RecursiveMinimax.select_attack cexC1 = .ok "S" ∧
    IterativeMinimax.select_attack cexC1 = .ok "A" ∧
    get_state_score cexC1 = .ok (-9) ∧
    achievedValue cexC1 "S" = .ok (-9) ∧
    achievedValue cexC1 "A" = .ok (-14) := by
  decide

/-- C2: wherever it succeeds, `get_state_score` computes exactly the
reference minimax value written from the specification's words: the
two agree as partial functions on every state with distinct actor
names. -/
theorem mm_C2 (s : BattleQueue) (hwf : wfNames s) :
    (get_state_score s).toOption = specValue s :=
  gss_spec_fuel (hpSum s + 1) s (by omega) hwf

theorem mm_C2_witness :
    (get_state_score w3).toOption = specValue w3 :=
  mm_C2 w3 (by unfold wfNames; decide)

/-- C3 (amended): whenever the current actor has at least one available
action, the state is non-terminal, names are distinct and
`get_state_score` itself succeeds with value `v`, the recursive
selector returns an available action whose one-ply successor has
re-anchored value exactly `v`; the unamended claim fails because the
selector inherits `get_state_score`'s crash on states whose recursion
reaches an action-less front actor (`mm_C3_cex`). -/
theorem mm_C3 (s : BattleQueue) (b : Bool) (v : Int) (hwf : wfNames s)
    (hov : is_over s = false) (hpk : peekSide s = some b)
    (hacts : get_available_actions (charOf s b) ≠ [])
    (hv : get_state_score s = .ok v) :
    ∃ a, RecursiveMinimax.select_attack s = .ok a ∧
      a ∈ get_available_actions (charOf s b) ∧
      achievedValue s a = .ok v :=
  select_attack_exact s hwf hov hpk hacts hv

theorem mm_C3_witness :
    ∃ a, RecursiveMinimax.select_attack w3 = .ok a ∧
      a ∈ get_available_actions (charOf w3 false) ∧
      achievedValue w3 a = .ok 10 :=
  mm_C3 w3 false 10 (by unfold wfNames; decide) rfl rfl (by decide) rfl

/-- C3 (counterexample): the front Mage of `c3state` has both actions
available and the state is non-terminal, yet the recursive selector
raises (Python: `max()` over an empty sequence inside
`get_state_score`) instead of returning an action token. -/
theorem mm_C3_cex :
    is_over c3state = false ∧
    get_available_actions (charOf c3state false) = ["A", "S"] ∧
    RecursiveMinimax.select_attack c3state = .error .maxEmpty := by
  decide

/-- C4: on the doctest state (Rogue `r` HP 40 / SP 6, Mage `m`
HP 14 / SP 35, the Mage in front) `get_state_score` returns exactly 7,
the iterative machinery's internal root score is also 7, and both
selectors return "A". -/
theorem mm_C4 :
    get_state_score bq1doc = .ok 7 ∧
    (IterativeMinimax.helper_assign_all_scores bq1doc).map
      IterativeMinimax.lastRootScore = .ok (some 7) ∧
    RecursiveMinimax.select_attack bq1doc = .ok "A" ∧
    IterativeMinimax.select_attack bq1doc = .ok "A" := by
  decide

/-- C5: every child `get_children_and_update` creates obeys the
creation-score rule — signed winner HP at a terminal child (positive
exactly when the winner is the child's caster), `[0]` on a tie, an
empty list otherwise — and the score-assignment pass never revisits
them: it leaves the whole node arena and the leaf (position-zero)
entry of every recorded path untouched. -/
theorem mm_C5 (arena : Array TOSNode) (i : Nat) (s : BattleQueue)
    (st : TreeSt)
    (h : IterativeMinimax.helper_get_the_whole_tree s = .ok st) :
    childScoreOk (gcauExpand arena i).1 (gcauExpand arena i).2 ∧
    IterativeMinimax.helper_assign_all_scores s =
      .ok (IterativeMinimax.assignScores st) ∧
    (IterativeMinimax.assignScores st).arena = st.arena ∧
    ∀ p0, entry0 (IterativeMinimax.assignScores st).possible_paths p0 =
      entry0 st.possible_paths p0 := by
  have hsn : snppcPosOk st.snppc := @buildTree_posOk (hpSum s + 2) s st h
  obtain ⟨f1, _, _, f4⟩ := assignScores_props st hsn
  refine ⟨gcauExpand_scoreOk arena i, ?_, f1, f4⟩
  unfold IterativeMinimax.helper_assign_all_scores
  rw [h]
  rfl

theorem mm_C5_witness :
    IterativeMinimax.helper_assign_all_scores s5w =
      .ok (IterativeMinimax.assignScores st5w) :=
  (mm_C5 #[] 0 s5w st5w rfl).2.1

/-- C6: an actor with an empty available-action set always yields the
sentinel "X" from both selectors, as a normal result, whatever the
rest of the queue holds. -/
theorem mm_C6 (s : BattleQueue) (b : Bool) (hpk : peekSide s = some b)
    (hav : get_available_actions (charOf s b) = []) :
    RecursiveMinimax.select_attack s = .ok "X" ∧
    IterativeMinimax.select_attack s = .ok "X" := by
  refine ⟨?_, iter_noMove_aux hpk hav⟩
  unfold RecursiveMinimax.select_attack
  rw [hpk]
  dsimp only
  rw [hav]
  rfl

theorem mm_C6_witness :
    RecursiveMinimax.select_attack s6w = .ok "X" ∧
    IterativeMinimax.select_attack s6w = .ok "X" :=
  mm_C6 s6w false rfl rfl

/-- C7 (amended): on the reference scenario the default tree returns
the MageSpecial skill; in general every skill `pick_skill` returns is
a per-path candidate of the deduplicating collection rule (each path's
first false-condition node whose priority and skill were not already
collected, with a root-false path contributing its root), of minimal
priority among the collected candidates.  The unamended per-path rule
— first false node from the root on every path, no deduplication —
disagrees with the code on `cexTree` (`mm_C7_cex`). -/
theorem mm_C7 (t : SkillDecisionTree) (c tg : Character) (sk : Skill)
    (h : pick_skill t c tg = .ok sk) :
    pick_skill create_default_tree cst7 tgt7 = .ok ⟨.mageSpecial, 4⟩ ∧
    ∃ pr, (pr, sk) ∈ dedupCands [] (helper_get_all_path t c tg) ∧
      ∀ e ∈ dedupCands [] (helper_get_all_path t c tg), pr ≤ e.1 :=
  ⟨by decide, pick_skill_dedup h⟩

theorem mm_C7_witness :
    pick_skill create_default_tree cst7 tgt7 = .ok ⟨.mageSpecial, 4⟩ ∧
    ∃ pr, (pr, (⟨.mageSpecial, 4⟩ : Skill)) ∈
        dedupCands [] (helper_get_all_path create_default_tree cst7 tgt7) ∧
      ∀ e ∈ dedupCands [] (helper_get_all_path create_default_tree cst7 tgt7),
        pr ≤ e.1 :=
  mm_C7 create_default_tree cst7 tgt7 ⟨.mageSpecial, 4⟩ (by decide)

/-- C7 (counterexample): on `cexTree` both root-to-leaf paths' first
false node is the priority-5 MageSpecial node, so the claimed rule
picks it; `pick_skill`, having already collected that node on the
first path, collects the second path's priority-1 leaf instead and
returns its RogueAttack skill. -/
theorem mm_C7_cex :
    pick_skill cexTree cst7 tgt7 = .ok ⟨.rogueAttack, 3⟩ ∧
    pickSkillClaimRule cexTree cst7 tgt7 = some ⟨.mageSpecial, 1⟩ ∧
    (⟨.rogueAttack, 3⟩ : Skill) ≠ ⟨.mageSpecial, 1⟩ := by
  decide

/-- C8 (amended): when every node's condition on every root-to-leaf
path evaluates true, `pick_skill` collects no candidate at all and
fails with Python's `IndexError` on `skills[0]`; no fallback to the
first path's first node exists in the code. -/
theorem mm_C8 (t : SkillDecisionTree) (c tg : Character)
    (H : ∀ p ∈ helper_get_all_path t c tg, ∀ e ∈ p, e.2.2 = true) :
    pick_skill t c tg = .error .indexError :=
  pick_skill_allTrue H

theorem mm_C8_witness :
    pick_skill allTrueTree cst8 tgt8 = .error .indexError :=
  mm_C8 allTrueTree cst8 tgt8 (by decide)

/-- C8 (counterexample): on `allTrueTree` with caster `cst8` every
condition on every path is true, yet `pick_skill` raises an
`IndexError` instead of returning the first path's first node's
skill. -/
theorem mm_C8_cex :
    (∀ p ∈ helper_get_all_path allTrueTree cst8 tgt8, ∀ e ∈ p,
      e.2.2 = true) ∧
    pick_skill allTrueTree cst8 tgt8 = .error .indexError := by
  decide

/-- C9: on every state with a non-empty queue the breadth-first
expansion of `helper_get_the_whole_tree` finishes within `hpSum + 2`
rounds (the fuelled embedding returns without consuming its fuel), and
`get_state_score`'s recursion terminates: its value is stable under
every sufficient fuel and the fuel marker is unreachable. -/
theorem mm_C9 (s : BattleQueue) (hne : s.content ≠ []) :
    (∃ st, IterativeMinimax.helper_get_the_whole_tree s = .ok st) ∧
    (∀ f, hpSum s < f → gssFuel f s = get_state_score s) ∧
    get_state_score s ≠ .error .noFuel := by
  refine ⟨buildTree_ok hne, fun f hf => gssFuel_stable hf, ?_⟩
  exact gssFuel_no_noFuel (hpSum s + 1) s (by omega)

theorem mm_C9_witness :
    (∃ st, IterativeMinimax.helper_get_the_whole_tree s9w = .ok st) ∧
    (∀ f, hpSum s9w < f → gssFuel f s9w = get_state_score s9w) ∧
    get_state_score s9w ≠ .error .noFuel :=
  mm_C9 s9w (by decide)

/-- C10 (amended): under the recursive safety predicate `gssSafe` —
every state the recursion visits is terminal keeping a next actor, or
has a next actor with at least one available action — `get_state_score`
returns a value and raises nothing.  The unamended claim is false: the
precondition "non-terminal with at least one available action" does
not propagate to the states recursed on (`mm_C10_cex`). -/
theorem mm_C10 (s : BattleQueue)
    (hsafe : gssSafe (hpSum s + 1) s = true) :
    ∃ v, get_state_score s = .ok v :=
  gssSafe_ok (hpSum s + 1) s (by omega) hsafe

theorem mm_C10_witness : ∃ v, get_state_score s10w = .ok v :=
  mm_C10 s10w (by decide)

/-- C10 (counterexample): `c10state` is non-terminal and its front Mage
has both actions available, yet `get_state_score` recurses into a
non-terminal state whose front actor has no action, and Python's `max`
receives an empty sequence — a `ValueError`, not a value. -/
theorem mm_C10_cex :
    is_over c10state = false ∧
    peekSide c10state = some false ∧
    get_available_actions (charOf c10state false) = ["A", "S"] ∧
    get_state_score c10state = .error .maxEmpty := by
  decide
